import Mathlib

/-!
Verification of the CART-style decision-tree classifier in `hw5code.py`
(`find_best_split` and class `DecisionTree`).

Shallow embedding conventions:
* real-valued features and all Gini arithmetic are modelled with exact
  rationals (`ℚ`) in place of IEEE float64;
* categorical feature values are also drawn from `ℚ` (the code only ever
  compares them for equality and uses them as dictionary keys);
* binary class labels are `ℕ` (the claims restrict them to 0/1);
* numpy arrays become lists; `np.argsort`-then-index becomes a stable merge
  sort of the (feature, label) pairs — within a block of equal feature
  values the order is irrelevant to every output of `find_best_split`, so
  the choice of sort does not matter;
* python exceptions (index errors on malformed input) have no result to
  model; the corresponding Lean functions are total and the spots where the
  source would raise are noted in comments.
-/

namespace HW5

/-- `np.argsort` followed by fancy-indexing of both vectors: the list of
(feature, label) pairs ordered by feature value.  (`zip` truncates to the
shorter vector; numpy instead raises when `target_vector` is the shorter
one — all claims below carry equal-length hypotheses.  Within a block of
equal feature values the order is irrelevant to every output of
`find_best_split`, so a stable insertion sort stands in for numpy's
unstable quicksort.) -/
def sortPairs (feature_vector : List ℚ) (target_vector : List ℕ) : List (ℚ × ℕ) :=
  (feature_vector.zip target_vector).insertionSort (fun a b => a.1 ≤ b.1)

/-- `np.unique` applied to an already ascending-sorted vector: collapse
adjacent equal values. -/
def dedupSorted : List ℚ → List ℚ
  | [] => []
  | [a] => [a]
  | a :: b :: l => if a = b then dedupSorted (b :: l) else a :: dedupSorted (b :: l)

/-- `(rolled_one_left + feature_vector_wo_last) / 2`: the candidate
thresholds, i.e. the means of adjacent distinct sorted feature values. -/
def midpoints (u : List ℚ) : List ℚ :=
  (u.zip u.tail).map (fun p => (p.1 + p.2) / 2)

/-- `len(feature_vector) - unique_indexes_reversed` for the unique value
`v`: the first index of `v` in the reversed (descending) sorted vector is
the number of entries strictly above `v`, so the code's subtraction yields
the number of entries `≤ v` — the size of the left part cut just after the
last occurrence of `v`. -/
def uniqueIndex (s : List (ℚ × ℕ)) (v : ℚ) : ℕ :=
  s.length - s.countP (fun x => decide (v < x.1))

/-- `np.cumsum(target_vector)[length_left - 1]`: the cumulative sum of the
sorted labels sampled at the last index of the left part, i.e. the sum of
the first `length_left` labels.  (`length_left ≥ 1` whenever `v` occurs in
`s`, so python's `-1` wrap-around for `length_left = 0` is never taken.) -/
def p1ForLeft (s : List (ℚ × ℕ)) (v : ℚ) : ℕ :=
  ((s.take (uniqueIndex s v)).map Prod.snd).sum

/-- One entry of the `Qs` vector of `find_best_split`: the Gini criterion
for the threshold lying just above the unique feature value `v`, with
`HR_l`, `HR_r` and the weighted combination exactly as in the source. -/
def Qvalue (s : List (ℚ × ℕ)) (v : ℚ) : ℚ :=
  let n : ℚ := s.length
  let lengthLeft : ℚ := uniqueIndex s v
  let p1ForLefts : ℚ := p1ForLeft s v
  let p1 := p1ForLefts / lengthLeft
  let HRl := 1 - p1 ^ 2 - (1 - p1) ^ 2
  let lengthRight : ℚ := n - lengthLeft
  let p1ForRights : ℚ := ((s.map Prod.snd).sum : ℕ) - p1ForLefts
  let p12 := p1ForRights / lengthRight
  let HRr := 1 - p12 ^ 2 - (1 - p12) ^ 2
  let Q := -lengthLeft / n * HRl - lengthRight / n * HRr
  Q

/-- `np.max` of a nonempty vector (0 on the empty vector, where numpy
raises). -/
def maxVal : List ℚ → ℚ
  | [] => 0
  | [a] => a
  | a :: b :: l => max a (maxVal (b :: l))

/-- `np.argmax`: the index of the first occurrence of the maximum (0 on the
empty vector, where numpy raises). -/
def argmaxIdx : List ℚ → ℕ
  | [] => 0
  | [_] => 0
  | a :: b :: l => if a < maxVal (b :: l) then argmaxIdx (b :: l) + 1 else 0

/-- The quadruple returned by `find_best_split`. -/
structure SplitResult where
  thresholds : List ℚ
  ginis : List ℚ
  threshold_best : ℚ
  gini_best : ℚ
deriving DecidableEq

/-- `find_best_split(feature_vector, target_vector)`.  On a feature with at
most one distinct value there are no thresholds and numpy's `argmax`/`max`
raise; here `threshold_best`/`gini_best` default to 0 (the tree code skips
such features before calling). -/
def find_best_split (feature_vector : List ℚ) (target_vector : List ℕ) :
    SplitResult :=
  let s := sortPairs feature_vector target_vector
  let u := dedupSorted (s.map Prod.fst)
  let thresholds := midpoints u
  let Qs := (u.zip u.tail).map (fun p => Qvalue s p.1)
  { thresholds := thresholds
    ginis := Qs
    threshold_best := thresholds.getD (argmaxIdx Qs) 0
    gini_best := maxVal Qs }

/-- Reference impurity, following the spec's words: `H(S) = 1 − p1² − p0²`
where `p1`, `p0` are the fractions of labels 1 and 0 in `S`. -/
def refImpurity (S : List (ℚ × ℕ)) : ℚ :=
  let n : ℚ := S.length
  let p1 : ℚ := (S.countP (fun x => decide (x.2 = 1)) : ℚ) / n
  let p0 : ℚ := (S.countP (fun x => decide (x.2 = 0)) : ℚ) / n
  let H := 1 - p1 ^ 2 - p0 ^ 2
  H

/-- Reference gain, following the spec's words:
`Gain(t) = −(|left|/N)·H(left) − (|right|/N)·H(right)` with
`left = {x < t}` and `right = {x ≥ t}`. -/
def refGain (rows : List (ℚ × ℕ)) (t : ℚ) : ℚ :=
  let n : ℚ := rows.length
  let l := rows.filter (fun x => decide (x.1 < t))
  let r := rows.filter (fun x => decide (t ≤ x.1))
  let g := -((l.length : ℚ) / n) * refImpurity l - ((r.length : ℚ) / n) * refImpurity r
  g

/-! ### The `DecisionTree` class -/

/-- A feature-type tag.  The source stores the strings `"real"` /
`"categorical"` and raises `ValueError` in `__init__` for anything else;
that fail-fast check is absorbed into this type. -/
inductive FeatureType
  | real
  | categorical
deriving DecidableEq

/-- The node dictionaries of the source, as the tagged union they encode:
`{"type": "terminal", "class": c}`, or `{"type": "nonterminal"}` with
`feature_split` plus either `threshold` (real split) or `categories_split`
(categorical split) and the two children. -/
inductive Node
  | terminal (cls : ℕ)
  | internalReal (feature : ℕ) (threshold : ℚ) (left right : Node)
  | internalCat (feature : ℕ) (categories_split : List ℚ) (left right : Node)
deriving DecidableEq

/-- Constructor parameters of `DecisionTree`.  `max_depth = none` models the
`np.inf` default (every finite depth is below it), `none` for the two size
parameters models their `None` defaults. -/
structure TreeConfig where
  feature_types : List FeatureType
  max_depth : Option ℕ := none
  min_samples_split : Option ℕ := none
  min_samples_leaf : Option ℕ := none

/-- Column `f` of the subsample: `sub_X[:, f]`.  Rows are assumed
rectangular; a too-short row defaults to 0 where numpy would raise. -/
def column (X : List (List ℚ)) (f : ℕ) : List ℚ :=
  X.map (fun row => row.getD f 0)

/-- The keys of a python `Counter` built from `l`: the distinct values in
first-occurrence order. -/
def keysInOrder : List ℚ → List ℚ
  | [] => []
  | a :: l => a :: keysInOrder (l.filter (fun x => decide (x ≠ a)))
termination_by l => l.length
decreasing_by simpa using Nat.lt_succ_of_le (List.length_filter_le _ _)

/-- Distinct labels in first-occurrence order (the `Counter(sub_y)` keys). -/
def labelKeysInOrder : List ℕ → List ℕ
  | [] => []
  | a :: l => a :: labelKeysInOrder (l.filter (fun x => decide (x ≠ a)))
termination_by l => l.length
decreasing_by simpa using Nat.lt_succ_of_le (List.length_filter_le _ _)

/-- `Counter(sub_y).most_common(1)[0][0]`: a label with maximal count.
`most_common` sorts stably by descending count, so among tied counts the
first-encountered label wins; the fold below replaces the champion only on
a strictly larger count, which picks exactly that label.  (0 on the empty
subsample, where the source would already have crashed on `sub_y[0]`.) -/
def mostCommon (y : List ℕ) : ℕ :=
  match labelKeysInOrder y with
  | [] => 0
  | k :: ks => ks.foldl (fun best k2 => if y.count best < y.count k2 then k2 else best) k

/-- The per-node categorical ranking: categories of the column sorted by
`ratio[key] = clicks[key] / counts[key]` (positive-label rate) ascending.
Python's `sorted` is stable, so ratio ties keep the `Counter` insertion
order, i.e. first-occurrence order — matched here by a stable insertion
sort over `keysInOrder`.  (`counts[key] ≥ 1` for every key, so the
division is never by zero.) -/
def sortedCategories (col : List ℚ) (y : List ℕ) : List ℚ :=
  let clicksSrc := ((col.zip y).filter (fun p => decide (p.2 = 1))).map Prod.fst
  (keysInOrder col).insertionSort
    (fun a b => (clicksSrc.count a : ℚ) / (col.count a : ℚ)
      ≤ (clicksSrc.count b : ℚ) / (col.count b : ℚ))

/-- `categories_map[c]`: the rank of category `c`, i.e. its index in the
ratio-sorted category list (`dict(zip(sorted_categories, range(...)))`).
For a value outside the column the source would raise `KeyError`; `indexOf`
returns the list length instead. -/
def categoryRank (col : List ℚ) (y : List ℕ) (c : ℚ) : ℕ :=
  (sortedCategories col y).indexOf c

/-- The encoded `feature_vector` handed to `find_best_split`: raw values
for a real feature, integer ranks for a categorical one. -/
def encodeFeature (ft : FeatureType) (col : List ℚ) (y : List ℕ) : List ℚ :=
  match ft with
  | .real => col
  | .categorical => col.map (fun c => (categoryRank col y c : ℚ))

/-- Either `node["threshold"]` or `node["categories_split"]`. -/
inductive SplitKind
  | thr (t : ℚ)
  | cats (cs : List ℚ)
deriving DecidableEq

/-- The loop state `feature_best / gini_best / split / threshold_best` of
`_fit_node` once at least one feature has been accepted. -/
structure BestAcc where
  feature_best : ℕ
  gini_best : ℚ
  split : List Bool
  threshold_best : SplitKind
deriving DecidableEq

/-- The encoded `feature_vector` of feature `f` at a node on subsample
`(X, y)` (reading the feature type out of the configuration; an index past
the configured list, where python raises, defaults to real). -/
def nodeFeatureVec (cfg : TreeConfig) (X : List (List ℚ)) (y : List ℕ)
    (f : ℕ) : List ℚ :=
  encodeFeature (cfg.feature_types.getD f .real) (column X f) y

/-- `list(map(lambda x: x[0], filter(lambda x: x[1] < threshold,
categories_map.items())))`: the categories whose rank is below the
threshold.  `categories_map.items()` iterates in dict insertion order,
which is the ratio-sorted category order, and maps each category to its
index there, so the result is the ratio-sorted category list filtered by
rank. -/
def catsBelow (col : List ℚ) (y : List ℕ) (t : ℚ) : List ℚ :=
  (sortedCategories col y).filter
    (fun c => decide ((categoryRank col y c : ℚ) < t))

/-- One iteration of the feature loop of `_fit_node`: the split candidate
feature `f` offers, or `none` when the feature is skipped
(`len(np.unique(feature_vector)) <= 1`) or rejected because a side of
the induced split (`left_size` / `right_size`) is below
`min_samples_leaf`. -/
def featureCandidate (cfg : TreeConfig) (X : List (List ℚ)) (y : List ℕ)
    (f : ℕ) : Option BestAcc :=
  let fv := nodeFeatureVec cfg X y f
  if (keysInOrder fv).length ≤ 1 then none
  else
    let r := find_best_split fv y
    let left_size := fv.countP (fun v => decide (v < r.threshold_best))
    let right_size := fv.countP (fun v => decide (r.threshold_best ≤ v))
    let valid := match cfg.min_samples_leaf with
      | none => true
      | some k => decide (k ≤ left_size) && decide (k ≤ right_size)
    if valid then
      some
        { feature_best := f
          gini_best := r.gini_best
          split := fv.map (fun v => decide (v < r.threshold_best))
          threshold_best :=
            match cfg.feature_types.getD f .real with
            | .real => .thr r.threshold_best
            | .categorical => .cats (catsBelow (column X f) y r.threshold_best) }
    else none

/-- The whole feature loop: scan the `sub_X.shape[1]` features from left to
right, replacing the champion only on a strictly larger gini
(`gini_best is None or gini > gini_best`). -/
def bestSplit (cfg : TreeConfig) (X : List (List ℚ)) (y : List ℕ) :
    Option BestAcc :=
  (List.range (X.headD []).length).foldl
    (fun acc f =>
      match featureCandidate cfg X y f with
      | none => acc
      | some cand =>
        match acc with
        | none => some cand
        | some best =>
          if best.gini_best < cand.gini_best then some cand else some best)
    none

/-- `continue_split_condition`: `depth < max_depth`, additionally
`sub_X.shape[0] >= min_samples_split` when that parameter is set. -/
def canSplitCond (cfg : TreeConfig) (nrows depth : ℕ) : Bool :=
  (match cfg.max_depth with
    | none => true
    | some d => decide (depth < d)) &&
  (match cfg.min_samples_split with
    | none => true
    | some m => decide (m ≤ nrows))

/-- The `sub_X.shape[0] < min_samples_split` disjunct of
`condition_terminal` (`false` when the parameter is `None`). -/
def belowSplitMin (cfg : TreeConfig) (nrows : ℕ) : Bool :=
  match cfg.min_samples_split with
  | none => false
  | some m => decide (nrows < m)

/-- `sub_X[mask]`: numpy boolean-mask selection.  (`zip` truncates where
numpy raises on a length mismatch.) -/
def maskFilter {α : Type} (l : List α) (mask : List Bool) : List α :=
  ((l.zip mask).filter (fun p => p.2)).map Prod.fst

/-- `_fit_node(sub_X, sub_y, node, depth)`.  The python recursion is
well-founded because every accepted split leaves both sides nonempty, so
each recursive call gets a strictly smaller subsample; that measure is made
explicit here as fuel, with `fit` supplying `number of rows + 1`.  On an
empty `sub_y` the source raises on `sub_y[0]`; here the purity guard then
degenerates to a `terminal 0`. -/
def fit_node (cfg : TreeConfig) : ℕ → List (List ℚ) → List ℕ → ℕ → Node
  | 0, _, _, _ => .terminal 0
  | fuel + 1, X, y, depth =>
    if y.all (fun l => decide (l = y.headD 0)) then .terminal (y.headD 0)
    else
      match (if canSplitCond cfg X.length depth then bestSplit cfg X y else none) with
      | none => .terminal (mostCommon y)
      | some b =>
        if belowSplitMin cfg X.length then .terminal (mostCommon y)
        else
          let notMask := b.split.map (fun m => !m)
          let lNode := fit_node cfg fuel (maskFilter X b.split)
            (maskFilter y b.split) (depth + 1)
          let rNode := fit_node cfg fuel (maskFilter X notMask)
            (maskFilter y notMask) (depth + 1)
          match b.threshold_best with
          | .thr t => .internalReal b.feature_best t lNode rNode
          | .cats cs => .internalCat b.feature_best cs lNode rNode

/-- `fit(X, y)`: build the tree from the root at depth 0.  The fuel
`X.length + 1` dominates the recursion depth, which the strict shrinking of
the subsample bounds by the number of rows. -/
def fit (cfg : TreeConfig) (X : List (List ℚ)) (y : List ℕ) : Node :=
  fit_node cfg (X.length + 1) X y 0

/-- `_predict_node(x, node)`: at a real split route left iff
`x[feature] < threshold`, at a categorical split route left iff
`np.isin(x[feature], categories_split)`.  (The source branches on
`feature_types[feature]` to pick which key to read; a fitted node stores
`threshold` exactly when that type is real, which the tagged `Node`
carries directly.) -/
def predict_node (x : List ℚ) : Node → ℕ
  | .terminal c => c
  | .internalReal f t l r =>
      if x.getD f 0 < t then predict_node x l else predict_node x r
  | .internalCat f cs l r =>
      if x.getD f 0 ∈ cs then predict_node x l else predict_node x r

/-- `predict(X)`: one traversal per row, outputs aligned with the input. -/
def predict (tree : Node) (X : List (List ℚ)) : List ℕ :=
  X.map (fun x => predict_node x tree)

/-! ### Invariant predicates used by the claims -/

/-- The routing test `_predict_node` applies at a real split:
`x[feature] < threshold`. -/
def routesLeftReal (f : ℕ) (t : ℚ) (row : List ℚ) : Bool :=
  decide (row.getD f 0 < t)

/-- The routing test `_predict_node` applies at a categorical split:
`np.isin(x[feature], categories_split)`. -/
def routesLeftCat (f : ℕ) (cs : List ℚ) (row : List ℚ) : Bool :=
  decide (row.getD f 0 ∈ cs)

/-- Every internal node of the tree splits the rows reaching it (via the
stored predicates, i.e. prediction routing) into a left part and a right
part each of size at least `k`. -/
def sizesOK (k : ℕ) : Node → List (List ℚ) → Prop
  | .terminal _, _ => True
  | .internalReal f t l r, X =>
      k ≤ (X.filter (routesLeftReal f t)).length ∧
      k ≤ (X.filter (fun row => !routesLeftReal f t row)).length ∧
      sizesOK k l (X.filter (routesLeftReal f t)) ∧
      sizesOK k r (X.filter (fun row => !routesLeftReal f t row))
  | .internalCat f cs l r, X =>
      k ≤ (X.filter (routesLeftCat f cs)).length ∧
      k ≤ (X.filter (fun row => !routesLeftCat f cs row)).length ∧
      sizesOK k l (X.filter (routesLeftCat f cs)) ∧
      sizesOK k r (X.filter (fun row => !routesLeftCat f cs row))

/-- At every internal node on a categorical feature, the stored left
category set holds only categories observed at that node (hence it and its
complement within the observed set are disjoint with union the whole
observed set), and both the left set and its complement are inhabited by
observed categories. -/
def catOK : Node → List (List ℚ) → Prop
  | .terminal _, _ => True
  | .internalReal f t l r, X =>
      catOK l (X.filter (routesLeftReal f t)) ∧
      catOK r (X.filter (fun row => !routesLeftReal f t row))
  | .internalCat f cs l r, X =>
      (∀ c ∈ cs, c ∈ keysInOrder (column X f)) ∧
      (∃ c ∈ keysInOrder (column X f), c ∈ cs) ∧
      (∃ c ∈ keysInOrder (column X f), c ∉ cs) ∧
      catOK l (X.filter (routesLeftCat f cs)) ∧
      catOK r (X.filter (fun row => !routesLeftCat f cs row))

/-- Every category stored at any categorical split of the tree is a value
occurring in the corresponding column of the fitting sample `X`; hence a
query value never observed during fitting is a member of no stored left
set and always routes right. -/
def storedCatsObserved (X : List (List ℚ)) : Node → Prop
  | .terminal _ => True
  | .internalReal _ _ l r => storedCatsObserved X l ∧ storedCatsObserved X r
  | .internalCat f cs l r =>
      (∀ c ∈ cs, c ∈ column X f) ∧ storedCatsObserved X l ∧ storedCatsObserved X r

/-- The configuration of the end-to-end scenario of claim C1: a single
real feature and `max_depth = 1`. -/
def scenarioConfig : TreeConfig :=
  { feature_types := [.real], max_depth := some 1 }

/-! ### Lemmas about the sorted pair list and its unique values -/

theorem sortPairs_perm (f : List ℚ) (t : List ℕ) :
    (sortPairs f t).Perm (f.zip t) :=
  List.perm_insertionSort _ _

theorem sortPairs_sorted (f : List ℚ) (t : List ℕ) :
    (sortPairs f t).Pairwise (fun a b : ℚ × ℕ => a.1 ≤ b.1) := by
  haveI : IsTotal (ℚ × ℕ) (fun a b : ℚ × ℕ => a.1 ≤ b.1) := ⟨fun a b => le_total a.1 b.1⟩
  haveI : IsTrans (ℚ × ℕ) (fun a b : ℚ × ℕ => a.1 ≤ b.1) :=
    ⟨fun _ _ _ hab hbc => le_trans hab hbc⟩
  exact List.sorted_insertionSort _ _

theorem mapFst_sortPairs_perm (f : List ℚ) (t : List ℕ) (h : f.length ≤ t.length) :
    ((sortPairs f t).map Prod.fst).Perm f := by
  have hp := (sortPairs_perm f t).map Prod.fst
  rwa [List.map_fst_zip f t h] at hp

theorem mapFst_sortPairs_sorted (f : List ℚ) (t : List ℕ) :
    ((sortPairs f t).map Prod.fst).Pairwise (· ≤ ·) :=
  List.pairwise_map.2 (sortPairs_sorted f t)

theorem mem_dedupSorted : ∀ {l : List ℚ} {a : ℚ}, a ∈ dedupSorted l ↔ a ∈ l
  | [], a => by simp [dedupSorted]
  | [b], a => by simp [dedupSorted]
  | b :: c :: l, a => by
    by_cases h : b = c
    · rw [dedupSorted, if_pos h, mem_dedupSorted]
      subst h
      simp only [List.mem_cons]
      tauto
    · rw [dedupSorted, if_neg h]
      simp only [List.mem_cons, mem_dedupSorted]

theorem dedupSorted_sublist : ∀ (l : List ℚ), List.Sublist (dedupSorted l) l
  | [] => by simp [dedupSorted]
  | [a] => by simp [dedupSorted]
  | a :: b :: l => by
    by_cases h : a = b
    · rw [dedupSorted, if_pos h]
      exact (dedupSorted_sublist (b :: l)).cons a
    · rw [dedupSorted, if_neg h]
      exact (dedupSorted_sublist (b :: l)).cons₂ a

theorem dedupSorted_nodup : ∀ {l : List ℚ}, l.Pairwise (· ≤ ·) → (dedupSorted l).Nodup
  | [], _ => by simp [dedupSorted]
  | [a], _ => by simp [dedupSorted]
  | a :: b :: l, hp => by
    have hab : a ≤ b := (List.pairwise_cons.1 hp).1 b (by simp)
    have hp2 : (b :: l).Pairwise (· ≤ ·) := (List.pairwise_cons.1 hp).2
    by_cases h : a = b
    · rw [dedupSorted, if_pos h]
      exact dedupSorted_nodup hp2
    · rw [dedupSorted, if_neg h]
      refine List.nodup_cons.2 ⟨?_, dedupSorted_nodup hp2⟩
      intro hmem
      have hmem2 : a ∈ b :: l := mem_dedupSorted.1 hmem
      have hba : b ≤ a := by
        rcases List.mem_cons.1 hmem2 with rfl | hal
        · exact le_refl _
        · exact (List.pairwise_cons.1 hp2).1 a hal
      exact h (le_antisymm hab hba)

theorem dedupSorted_sorted_lt {l : List ℚ} (h : l.Pairwise (· ≤ ·)) :
    (dedupSorted l).Pairwise (· < ·) :=
  List.Sorted.lt_of_le (List.Pairwise.sublist (dedupSorted_sublist l) h)
    (dedupSorted_nodup h)

/-- In a strictly sorted list the head is a lower bound. -/
theorem head_le_of_pairwise_lt {y : ℚ} {l : List ℚ}
    (h : (y :: l).Pairwise (· < ·)) : ∀ a ∈ y :: l, y ≤ a := by
  intro a ha
  rcases List.mem_cons.1 ha with rfl | ha2
  · exact le_refl _
  · exact le_of_lt ((List.pairwise_cons.1 h).1 a ha2)

/-- For a strictly sorted list, each pair of `u.zip u.tail` is an adjacent
pair: its components are increasing members of `u` and no member of `u`
lies strictly between them. -/
theorem zip_tail_spec : ∀ {u : List ℚ}, u.Pairwise (· < ·) →
    ∀ p ∈ u.zip u.tail, p.1 < p.2 ∧ p.1 ∈ u ∧ p.2 ∈ u ∧
      ∀ v ∈ u, v ≤ p.1 ∨ p.2 ≤ v
  | [], _ => by simp
  | [a], _ => by simp
  | a :: b :: l, hp => by
    intro p hpmem
    have hp2 : (b :: l).Pairwise (· < ·) := (List.pairwise_cons.1 hp).2
    have hablt : ∀ v ∈ b :: l, a < v := (List.pairwise_cons.1 hp).1
    rw [List.tail_cons, List.zip_cons_cons] at hpmem
    rcases List.mem_cons.1 hpmem with rfl | hpmem2
    · refine ⟨hablt b (by simp), by simp, by simp, ?_⟩
      intro v hv
      rcases List.mem_cons.1 hv with rfl | hv2
      · exact Or.inl (le_refl _)
      · exact Or.inr (head_le_of_pairwise_lt hp2 v hv2)
    · have hrec := zip_tail_spec hp2 p (by rw [List.tail_cons]; exact hpmem2)
      obtain ⟨hlt, hm1, hm2, hadj⟩ := hrec
      refine ⟨hlt, List.mem_cons_of_mem a hm1, List.mem_cons_of_mem a hm2, ?_⟩
      intro v hv
      rcases List.mem_cons.1 hv with rfl | hv2
      · exact Or.inl (le_of_lt (hablt p.1 hm1))
      · exact hadj v hv2

/-- Converse of `zip_tail_spec`: two increasing members of a strictly
sorted list with no member strictly between them form a pair of
`u.zip u.tail`. -/
theorem mem_zip_tail_of_adj : ∀ {u : List ℚ}, u.Pairwise (· < ·) →
    ∀ a b : ℚ, a ∈ u → b ∈ u → a < b → (∀ v ∈ u, v ≤ a ∨ b ≤ v) →
    (a, b) ∈ u.zip u.tail
  | [], _ => by simp
  | [x], _ => by
    intro a b ha hb hab _
    simp only [List.mem_singleton] at ha hb
    subst ha
    subst hb
    exact absurd hab (lt_irrefl _)
  | x :: y :: l, hp => by
    intro a b ha hb hab hadj
    have hp2 : (y :: l).Pairwise (· < ·) := (List.pairwise_cons.1 hp).2
    have hxlt : ∀ v ∈ y :: l, x < v := (List.pairwise_cons.1 hp).1
    rw [List.tail_cons, List.zip_cons_cons]
    rcases List.mem_cons.1 ha with rfl | ha2
    · have hby : b = y := by
        rcases List.mem_cons.1 hb with rfl | hb2
        · exact absurd hab (lt_irrefl _)
        · rcases List.mem_cons.1 hb2 with rfl | hb3
          · rfl
          · exfalso
            rcases hadj y (by simp) with h1 | h1
            · exact absurd (lt_of_lt_of_le (hxlt y (by simp)) h1) (lt_irrefl _)
            · exact absurd (lt_of_lt_of_le ((List.pairwise_cons.1 hp2).1 b hb3) h1)
                (lt_irrefl _)
      subst hby
      exact List.mem_cons_self _ _
    · have hb2 : b ∈ y :: l := by
        rcases List.mem_cons.1 hb with rfl | hbm
        · exact absurd (lt_trans (hxlt a ha2) hab) (lt_irrefl _)
        · exact hbm
      have hadj2 : ∀ v ∈ y :: l, v ≤ a ∨ b ≤ v := fun v hv =>
        hadj v (List.mem_cons_of_mem x hv)
      exact List.mem_cons_of_mem _
        (mem_zip_tail_of_adj hp2 a b ha2 hb2 hab hadj2)

theorem mem_midpoints {u : List ℚ} {m : ℚ} :
    m ∈ midpoints u ↔ ∃ p ∈ u.zip u.tail, (p.1 + p.2) / 2 = m := by
  simp [midpoints]

theorem midpoints_pairwise : ∀ {u : List ℚ}, u.Pairwise (· < ·) →
    (midpoints u).Pairwise (· < ·)
  | [], _ => by simp [midpoints]
  | [a], _ => by simp [midpoints]
  | a :: b :: l, hp => by
    have hp2 : (b :: l).Pairwise (· < ·) := (List.pairwise_cons.1 hp).2
    have hab : a < b := (List.pairwise_cons.1 hp).1 b (by simp)
    rw [midpoints, List.tail_cons, List.zip_cons_cons, List.map_cons]
    refine List.pairwise_cons.2 ⟨?_, ?_⟩
    · intro m hm
      have hm2 : m ∈ midpoints (b :: l) := by
        rw [midpoints, List.tail_cons]
        exact hm
      rcases mem_midpoints.1 hm2 with ⟨p, hpmem, hpm⟩
      obtain ⟨hlt, hm1, _, _⟩ := zip_tail_spec hp2 p hpmem
      have h1 : b ≤ p.1 := head_le_of_pairwise_lt hp2 p.1 hm1
      rw [← hpm]
      linarith
    · have := midpoints_pairwise hp2
      rw [midpoints, List.tail_cons] at this
      exact this

/-! ### Counting lemmas -/

theorem uniqueIndex_eq_countP (s : List (ℚ × ℕ)) (v : ℚ) :
    uniqueIndex s v = s.countP (fun x => decide (x.1 ≤ v)) := by
  unfold uniqueIndex
  have h := List.length_eq_countP_add_countP (fun x : ℚ × ℕ => decide (v < x.1)) s
  have h2 : s.countP (fun x => decide (x.1 ≤ v))
      = s.countP (fun x => decide ¬(decide (v < x.1)) = true) := by
    apply List.countP_congr
    intro x _
    by_cases hx : x.1 ≤ v
    · simp [hx, not_lt.2 hx]
    · simp [hx, lt_of_not_le hx]
  omega

theorem sorted_take_countP_filter : ∀ {s : List (ℚ × ℕ)},
    s.Pairwise (fun a b : ℚ × ℕ => a.1 ≤ b.1) → ∀ v : ℚ,
    s.take (s.countP (fun x => decide (x.1 ≤ v)))
      = s.filter (fun x => decide (x.1 ≤ v))
  | [], _ => by simp
  | x :: s, hp => by
    intro v
    have hp2 : s.Pairwise (fun a b : ℚ × ℕ => a.1 ≤ b.1) := (List.pairwise_cons.1 hp).2
    by_cases hx : x.1 ≤ v
    · have hxd : decide (x.1 ≤ v) = true := decide_eq_true hx
      rw [List.countP_cons, List.filter_cons, hxd]
      simp only [if_true]
      rw [List.take_succ_cons, sorted_take_countP_filter hp2 v]
    · have hall : ∀ a ∈ x :: s, ¬(a.1 ≤ v) := by
        intro a ha
        rcases List.mem_cons.1 ha with rfl | ha2
        · exact hx
        · intro hle
          exact hx (le_trans ((List.pairwise_cons.1 hp).1 a ha2) hle)
      have hc : (x :: s).countP (fun x => decide (x.1 ≤ v)) = 0 :=
        List.countP_eq_zero.2 (by intro a ha; simpa using hall a ha)
      have hf : (x :: s).filter (fun x => decide (x.1 ≤ v)) = [] :=
        List.filter_eq_nil.2 (by intro a ha; simpa using hall a ha)
      rw [hc, hf, List.take_zero]

theorem sum_snd_eq_countP_one : ∀ {S : List (ℚ × ℕ)},
    (∀ x ∈ S, x.2 = 0 ∨ x.2 = 1) →
    (S.map Prod.snd).sum = S.countP (fun x => decide (x.2 = 1))
  | [], _ => by simp
  | x :: S, hb => by
    have hx := hb x (by simp)
    have hS : ∀ a ∈ S, a.2 = 0 ∨ a.2 = 1 := fun a ha => hb a (by simp [ha])
    rw [List.map_cons, List.sum_cons, List.countP_cons, sum_snd_eq_countP_one hS]
    rcases hx with h | h <;> simp [h] <;> omega

theorem countP_zero_add_one : ∀ {S : List (ℚ × ℕ)},
    (∀ x ∈ S, x.2 = 0 ∨ x.2 = 1) →
    S.countP (fun x => decide (x.2 = 0)) + S.countP (fun x => decide (x.2 = 1))
      = S.length
  | [], _ => by simp
  | x :: S, hb => by
    have hx := hb x (by simp)
    have hS : ∀ a ∈ S, a.2 = 0 ∨ a.2 = 1 := fun a ha => hb a (by simp [ha])
    rw [List.countP_cons, List.countP_cons, List.length_cons,
      ← countP_zero_add_one hS]
    rcases hx with h | h <;> simp [h] <;> omega

theorem countP_lt_add_ge (t : ℚ) : ∀ (l : List (ℚ × ℕ)),
    l.countP (fun x => decide (x.1 < t)) + l.countP (fun x => decide (t ≤ x.1))
      = l.length
  | [] => by simp
  | x :: l => by
    rw [List.countP_cons, List.countP_cons, List.length_cons,
      ← countP_lt_add_ge t l]
    by_cases hx : x.1 < t
    · simp [hx, not_le.2 hx]
      omega
    · simp [hx, not_lt.1 hx]
      omega

theorem countP_split (p q : ℚ × ℕ → Bool) : ∀ (l : List (ℚ × ℕ)),
    l.countP p = l.countP (fun a => p a && q a) + l.countP (fun a => p a && !q a)
  | [] => by simp
  | x :: l => by
    rw [List.countP_cons, List.countP_cons, List.countP_cons, countP_split p q l]
    cases hp : p x <;> cases hq : q x <;> simp [hp, hq] <;> omega

/-! ### `np.max` / `np.argmax` lemmas -/

theorem maxVal_cons_cons (a b : ℚ) (l : List ℚ) :
    maxVal (a :: b :: l) = max a (maxVal (b :: l)) := rfl

theorem argmaxIdx_lt_length : ∀ {l : List ℚ}, l ≠ [] → argmaxIdx l < l.length
  | [], h => absurd rfl h
  | [_], _ => by simp [argmaxIdx]
  | a :: b :: l, _ => by
    rw [argmaxIdx]
    by_cases h : a < maxVal (b :: l)
    · rw [if_pos h]
      have := argmaxIdx_lt_length (l := b :: l) (by simp)
      simpa [Nat.succ_lt_succ_iff] using this
    · rw [if_neg h]
      simp

theorem getD_argmaxIdx_eq_maxVal : ∀ {l : List ℚ}, l ≠ [] →
    l.getD (argmaxIdx l) 0 = maxVal l
  | [], h => absurd rfl h
  | [a], _ => by simp [argmaxIdx, maxVal]
  | a :: b :: l, _ => by
    rw [argmaxIdx, maxVal_cons_cons]
    by_cases h : a < maxVal (b :: l)
    · rw [if_pos h, List.getD_cons_succ,
        getD_argmaxIdx_eq_maxVal (l := b :: l) (by simp)]
      exact (max_eq_right (le_of_lt h)).symm
    · rw [if_neg h, List.getD_cons_zero]
      exact (max_eq_left (not_lt.1 h)).symm

theorem getD_lt_maxVal_of_lt_argmaxIdx : ∀ {l : List ℚ} {j : ℕ},
    j < argmaxIdx l → l.getD j 0 < maxVal l
  | [], j, h => by simp [argmaxIdx] at h
  | [a], j, h => by simp [argmaxIdx] at h
  | a :: b :: l, j, h => by
    rw [argmaxIdx] at h
    by_cases hc : a < maxVal (b :: l)
    · rw [if_pos hc] at h
      rw [maxVal_cons_cons, max_eq_right (le_of_lt hc)]
      cases j with
      | zero => simpa using hc
      | succ k =>
        rw [List.getD_cons_succ]
        exact getD_lt_maxVal_of_lt_argmaxIdx (Nat.lt_of_succ_lt_succ h)
    · rw [if_neg hc] at h
      exact absurd h (Nat.not_lt_zero j)

theorem getD_le_getD_of_pairwise_lt {l : List ℚ} (h : l.Pairwise (· < ·))
    {i j : ℕ} (hij : i ≤ j) (hj : j < l.length) :
    l.getD i 0 ≤ l.getD j 0 := by
  rcases eq_or_lt_of_le hij with rfl | hlt
  · exact le_refl _
  · have hi : i < l.length := lt_trans hlt hj
    rw [List.getD_eq_getElem _ _ hi, List.getD_eq_getElem _ _ hj]
    exact le_of_lt (List.pairwise_iff_getElem.1 h i j hi hj hlt)

/-! ### Characterization of `find_best_split` -/

theorem fbs_thresholds (f : List ℚ) (tg : List ℕ) :
    (find_best_split f tg).thresholds
      = midpoints (dedupSorted ((sortPairs f tg).map Prod.fst)) := rfl

theorem fbs_ginis (f : List ℚ) (tg : List ℕ) :
    (find_best_split f tg).ginis
      = ((dedupSorted ((sortPairs f tg).map Prod.fst)).zip
          (dedupSorted ((sortPairs f tg).map Prod.fst)).tail).map
        (fun p => Qvalue (sortPairs f tg) p.1) := rfl

theorem fbs_threshold_best (f : List ℚ) (tg : List ℕ) :
    (find_best_split f tg).threshold_best
      = (find_best_split f tg).thresholds.getD
          (argmaxIdx (find_best_split f tg).ginis) 0 := rfl

theorem fbs_gini_best (f : List ℚ) (tg : List ℕ) :
    (find_best_split f tg).gini_best = maxVal (find_best_split f tg).ginis := rfl

theorem fbs_lengths (f : List ℚ) (tg : List ℕ) :
    (find_best_split f tg).ginis.length
      = (find_best_split f tg).thresholds.length := by
  rw [fbs_ginis, fbs_thresholds, midpoints]
  simp

/-- The sorted distinct values of the feature vector are strictly sorted. -/
theorem uvals_sorted_lt (f : List ℚ) (tg : List ℕ) :
    (dedupSorted ((sortPairs f tg).map Prod.fst)).Pairwise (· < ·) :=
  dedupSorted_sorted_lt (mapFst_sortPairs_sorted f tg)

/-- Characterization of one candidate threshold of `find_best_split`: for
an adjacent pair `(a, b)` of distinct sorted feature values, the midpoint
separates exactly after the last occurrence of `a`: for every value `v` of
the vector, `v` is below the midpoint iff `v ≤ a`, and at-or-above iff
`b ≤ v`. -/
theorem pair_threshold_spec (f : List ℚ) (tg : List ℕ) :
    ∀ p ∈ (dedupSorted ((sortPairs f tg).map Prod.fst)).zip
        (dedupSorted ((sortPairs f tg).map Prod.fst)).tail,
      p.1 < (p.1 + p.2) / 2 ∧ (p.1 + p.2) / 2 < p.2 ∧
      p.1 ∈ (sortPairs f tg).map Prod.fst ∧
      p.2 ∈ (sortPairs f tg).map Prod.fst ∧
      ∀ v ∈ (sortPairs f tg).map Prod.fst,
        (v < (p.1 + p.2) / 2 ↔ v ≤ p.1) ∧ ((p.1 + p.2) / 2 ≤ v ↔ p.2 ≤ v) := by
  intro p hpmem
  obtain ⟨hab, hau, hbu, hadj⟩ := zip_tail_spec (uvals_sorted_lt f tg) p hpmem
  have hat : p.1 < (p.1 + p.2) / 2 := by linarith
  have htb : (p.1 + p.2) / 2 < p.2 := by linarith
  refine ⟨hat, htb, mem_dedupSorted.1 hau, mem_dedupSorted.1 hbu, ?_⟩
  intro v hv
  have hvu : v ∈ dedupSorted ((sortPairs f tg).map Prod.fst) :=
    mem_dedupSorted.2 hv
  rcases hadj v hvu with hva | hbv
  · constructor
    · exact ⟨fun _ => hva, fun h => lt_of_le_of_lt h hat⟩
    · constructor
      · intro h
        exact absurd (lt_of_le_of_lt (le_trans h hva) hat) (lt_irrefl _)
      · intro h
        exact absurd (lt_of_lt_of_le hab (le_trans h hva)) (lt_irrefl _)
  · have htv : (p.1 + p.2) / 2 < v := lt_of_lt_of_le htb hbv
    constructor
    · constructor
      · intro h
        exact absurd (lt_trans h htv) (lt_irrefl v)
      · intro h
        exact absurd (lt_of_le_of_lt (le_trans hbv h) hab) (lt_irrefl _)
    · exact ⟨fun _ => hbv, fun _ => le_of_lt htv⟩

/-- With equal-length vectors, the sorted feature values are a permutation
of the input feature vector, so membership coincides. -/
theorem mem_mapFst_iff (f : List ℚ) (tg : List ℕ) (hlen : f.length = tg.length)
    (v : ℚ) : v ∈ (sortPairs f tg).map Prod.fst ↔ v ∈ f :=
  (mapFst_sortPairs_perm f tg (le_of_eq hlen)).mem_iff

/-- Pointwise core of claim C2: the `Qs` entry computed from the running
cumulative sums at the unique value `a = p.1` equals the reference gain at
the candidate threshold `(p.1 + p.2)/2`, for every adjacent pair of
distinct sorted values, whenever the labels are binary. -/
theorem Qvalue_eq_refGain (f : List ℚ) (tg : List ℕ)
    (hlen : f.length = tg.length) (hbin : ∀ l ∈ tg, l = 0 ∨ l = 1) :
    ∀ p ∈ (dedupSorted ((sortPairs f tg).map Prod.fst)).zip
        (dedupSorted ((sortPairs f tg).map Prod.fst)).tail,
      Qvalue (sortPairs f tg) p.1 = refGain (f.zip tg) ((p.1 + p.2) / 2) := by
  intro p hpmem
  obtain ⟨hat, htb, haf, hbf, hiff⟩ := pair_threshold_spec f tg p hpmem
  have hperm : (sortPairs f tg).Perm (f.zip tg) := sortPairs_perm f tg
  have hbinS : ∀ x ∈ sortPairs f tg, x.2 = 0 ∨ x.2 = 1 := by
    intro x hx
    obtain ⟨xa, xb⟩ := x
    exact hbin xb (List.of_mem_zip (hperm.mem_iff.1 hx)).2
  have hbinR : ∀ x ∈ f.zip tg, x.2 = 0 ∨ x.2 = 1 := by
    intro x hx
    obtain ⟨xa, xb⟩ := x
    exact hbin xb (List.of_mem_zip hx).2
  -- boolean congruences on members of the sorted list
  have hblt : ∀ x ∈ sortPairs f tg,
      (decide (x.1 < (p.1 + p.2) / 2) : Bool) = decide (x.1 ≤ p.1) := by
    intro x hx
    exact decide_eq_decide.2 ((hiff x.1 (List.mem_map_of_mem _ hx)).1)
  have hnot : ∀ x : ℚ × ℕ, (!decide (x.1 < (p.1 + p.2) / 2)) = decide ((p.1 + p.2) / 2 ≤ x.1) := by
    intro x
    rw [← decide_not]
    exact decide_eq_decide.2 not_lt
  -- the left part of the reference split has length `length_left`
  have hL_count : uniqueIndex (sortPairs f tg) p.1
      = (sortPairs f tg).countP (fun x => decide (x.1 ≤ p.1)) :=
    uniqueIndex_eq_countP _ _
  have hLf : ((f.zip tg).filter (fun x => decide (x.1 < (p.1 + p.2) / 2))).length
      = uniqueIndex (sortPairs f tg) p.1 := by
    rw [← List.countP_eq_length_filter, hL_count,
      ← hperm.countP_eq (fun x => decide (x.1 < (p.1 + p.2) / 2))]
    exact List.countP_congr (fun x hx => by rw [hblt x hx])
  -- the cumulative sum at the cut equals the positives of the left part
  have htake : (sortPairs f tg).take (uniqueIndex (sortPairs f tg) p.1)
      = (sortPairs f tg).filter (fun x => decide (x.1 ≤ p.1)) := by
    rw [hL_count]
    exact sorted_take_countP_filter (sortPairs_sorted f tg) p.1
  have hPf : p1ForLeft (sortPairs f tg) p.1
      = ((f.zip tg).filter (fun x => decide (x.1 < (p.1 + p.2) / 2))).countP
          (fun x => decide (x.2 = 1)) := by
    unfold p1ForLeft
    rw [htake, ← List.filter_congr (fun x hx => (hblt x hx))]
    rw [sum_snd_eq_countP_one
      (fun x hx => hbinS x (List.mem_of_mem_filter hx))]
    exact (hperm.filter _).countP_eq _
  -- the full sum of labels equals the positives of the whole sample
  have hTf : ((sortPairs f tg).map Prod.snd).sum
      = (f.zip tg).countP (fun x => decide (x.2 = 1)) := by
    rw [sum_snd_eq_countP_one hbinS]
    exact hperm.countP_eq _
  -- the two parts cover the sample
  have hsplitLen : ((f.zip tg).filter (fun x => decide (x.1 < (p.1 + p.2) / 2))).length
      + ((f.zip tg).filter (fun x => decide ((p.1 + p.2) / 2 ≤ x.1))).length
      = (f.zip tg).length := by
    rw [← List.countP_eq_length_filter, ← List.countP_eq_length_filter]
    exact countP_lt_add_ge ((p.1 + p.2) / 2) (f.zip tg)
  -- positives split over the two parts
  have hsplit1 : (f.zip tg).countP (fun x => decide (x.2 = 1))
      = ((f.zip tg).filter (fun x => decide (x.1 < (p.1 + p.2) / 2))).countP
          (fun x => decide (x.2 = 1))
        + ((f.zip tg).filter (fun x => decide ((p.1 + p.2) / 2 ≤ x.1))).countP
          (fun x => decide (x.2 = 1)) := by
    rw [List.countP_filter, List.countP_filter]
    rw [countP_split (fun x => decide (x.2 = 1))
      (fun x => decide (x.1 < (p.1 + p.2) / 2)) (f.zip tg)]
    congr 1
    apply List.countP_congr
    intro x _
    rw [hnot x]
  -- zeros and ones of each part add to its length
  have hc0L : ((f.zip tg).filter (fun x => decide (x.1 < (p.1 + p.2) / 2))).countP
        (fun x => decide (x.2 = 0))
      + ((f.zip tg).filter (fun x => decide (x.1 < (p.1 + p.2) / 2))).countP
        (fun x => decide (x.2 = 1))
      = ((f.zip tg).filter (fun x => decide (x.1 < (p.1 + p.2) / 2))).length :=
    countP_zero_add_one (fun x hx => hbinR x (List.mem_of_mem_filter hx))
  have hc0R : ((f.zip tg).filter (fun x => decide ((p.1 + p.2) / 2 ≤ x.1))).countP
        (fun x => decide (x.2 = 0))
      + ((f.zip tg).filter (fun x => decide ((p.1 + p.2) / 2 ≤ x.1))).countP
        (fun x => decide (x.2 = 1))
      = ((f.zip tg).filter (fun x => decide ((p.1 + p.2) / 2 ≤ x.1))).length :=
    countP_zero_add_one (fun x hx => hbinR x (List.mem_of_mem_filter hx))
  -- both parts are nonempty
  have h1L : 1 ≤ ((f.zip tg).filter (fun x => decide (x.1 < (p.1 + p.2) / 2))).length := by
    rw [← List.countP_eq_length_filter]
    refine List.countP_pos_iff.2 ?_
    rcases List.mem_map.1 haf with ⟨x, hx, hx1⟩
    refine ⟨x, hperm.mem_iff.1 hx, ?_⟩
    simp only [decide_eq_true_eq]
    rw [hx1]
    exact hat
  have h1R : 1 ≤ ((f.zip tg).filter (fun x => decide ((p.1 + p.2) / 2 ≤ x.1))).length := by
    rw [← List.countP_eq_length_filter]
    refine List.countP_pos_iff.2 ?_
    rcases List.mem_map.1 hbf with ⟨x, hx, hx1⟩
    refine ⟨x, hperm.mem_iff.1 hx, ?_⟩
    simp only [decide_eq_true_eq]
    rw [hx1]
    exact le_of_lt htb
  -- rational versions of the counting identities
  have hq_n : (((f.zip tg).length : ℚ)) = (((sortPairs f tg).length : ℚ)) := by
    exact_mod_cast hperm.length_eq.symm
  have hq_L : ((((f.zip tg).filter (fun x => decide (x.1 < (p.1 + p.2) / 2))).length : ℚ))
      = ((uniqueIndex (sortPairs f tg) p.1 : ℚ)) := by
    exact_mod_cast hLf
  have hq_P : ((((f.zip tg).filter (fun x => decide (x.1 < (p.1 + p.2) / 2))).countP
        (fun x => decide (x.2 = 1)) : ℚ))
      = ((p1ForLeft (sortPairs f tg) p.1 : ℚ)) := by
    exact_mod_cast hPf.symm
  have hq_R : ((((f.zip tg).filter (fun x => decide ((p.1 + p.2) / 2 ≤ x.1))).length : ℚ))
      = (((sortPairs f tg).length : ℚ)) - ((uniqueIndex (sortPairs f tg) p.1 : ℚ)) := by
    have h := congrArg (fun m : ℕ => (m : ℚ)) hsplitLen
    push_cast at h
    linarith [hq_L, hq_n]
  have hq_c1R : ((((f.zip tg).filter (fun x => decide ((p.1 + p.2) / 2 ≤ x.1))).countP
        (fun x => decide (x.2 = 1)) : ℚ))
      = ((((sortPairs f tg).map Prod.snd).sum : ℚ))
        - ((p1ForLeft (sortPairs f tg) p.1 : ℚ)) := by
    have h1 := congrArg (fun m : ℕ => (m : ℚ)) hsplit1
    push_cast at h1
    have h2 : ((((sortPairs f tg).map Prod.snd).sum : ℚ))
        = (((f.zip tg).countP (fun x => decide (x.2 = 1)) : ℚ)) := by
      exact_mod_cast hTf
    linarith [hq_P]
  have hq_c0L : ((((f.zip tg).filter (fun x => decide (x.1 < (p.1 + p.2) / 2))).countP
        (fun x => decide (x.2 = 0)) : ℚ))
      = ((uniqueIndex (sortPairs f tg) p.1 : ℚ))
        - ((p1ForLeft (sortPairs f tg) p.1 : ℚ)) := by
    have h := congrArg (fun m : ℕ => (m : ℚ)) hc0L
    push_cast at h
    linarith [hq_L, hq_P]
  have hq_c0R : ((((f.zip tg).filter (fun x => decide ((p.1 + p.2) / 2 ≤ x.1))).countP
        (fun x => decide (x.2 = 0)) : ℚ))
      = ((((sortPairs f tg).length : ℚ)) - ((uniqueIndex (sortPairs f tg) p.1 : ℚ)))
        - (((((sortPairs f tg).map Prod.snd).sum : ℚ))
          - ((p1ForLeft (sortPairs f tg) p.1 : ℚ))) := by
    have h := congrArg (fun m : ℕ => (m : ℚ)) hc0R
    push_cast at h
    linarith [hq_R, hq_c1R]
  -- nonzero denominators
  have hL0 : ((uniqueIndex (sortPairs f tg) p.1 : ℚ)) ≠ 0 := by
    have : (1 : ℚ) ≤ ((uniqueIndex (sortPairs f tg) p.1 : ℚ)) := by
      rw [← hq_L]
      exact_mod_cast h1L
    linarith
  have hR0 : (((sortPairs f tg).length : ℚ)) - ((uniqueIndex (sortPairs f tg) p.1 : ℚ)) ≠ 0 := by
    have : (1 : ℚ) ≤ (((sortPairs f tg).length : ℚ))
        - ((uniqueIndex (sortPairs f tg) p.1 : ℚ)) := by
      rw [← hq_R]
      exact_mod_cast h1R
    linarith
  have hn0 : (((sortPairs f tg).length : ℚ)) ≠ 0 := by
    have h1 : (1 : ℚ) ≤ ((uniqueIndex (sortPairs f tg) p.1 : ℚ)) := by
      rw [← hq_L]
      exact_mod_cast h1L
    have h2 : ((uniqueIndex (sortPairs f tg) p.1 : ℚ))
        ≤ (((sortPairs f tg).length : ℚ)) := by
      have := hR0
      have h3 : (1 : ℚ) ≤ (((sortPairs f tg).length : ℚ))
          - ((uniqueIndex (sortPairs f tg) p.1 : ℚ)) := by
        rw [← hq_R]
        exact_mod_cast h1R
      linarith
    linarith
  -- unfold both sides and close the field identity
  simp only [Qvalue, refGain, refImpurity]
  rw [hq_n, hq_L, hq_P, hq_R, hq_c1R, hq_c0L, hq_c0R]
  field_simp

/-- A feature vector with two distinct values has at least two distinct
sorted unique values. -/
theorem two_le_uvals (f : List ℚ) (tg : List ℕ) (hlen : f.length = tg.length)
    (hdist : ∃ a ∈ f, ∃ b ∈ f, a ≠ b) :
    2 ≤ (dedupSorted ((sortPairs f tg).map Prod.fst)).length := by
  rcases hdist with ⟨a, ha, b, hb, hab⟩
  have hau : a ∈ dedupSorted ((sortPairs f tg).map Prod.fst) :=
    mem_dedupSorted.2 ((mem_mapFst_iff f tg hlen a).2 ha)
  have hbu : b ∈ dedupSorted ((sortPairs f tg).map Prod.fst) :=
    mem_dedupSorted.2 ((mem_mapFst_iff f tg hlen b).2 hb)
  rcases hu : dedupSorted ((sortPairs f tg).map Prod.fst) with _ | ⟨x, _ | ⟨y, l⟩⟩
  · rw [hu] at hau
    simp at hau
  · rw [hu] at hau hbu
    simp at hau hbu
    subst hau
    subst hbu
    exact absurd rfl hab
  · simp

/-- Every threshold of `find_best_split` splits the input vector into a
nonempty strictly-below part and a nonempty at-or-above part. -/
theorem fbs_sides_core (f : List ℚ) (tg : List ℕ) (hlen : f.length = tg.length) :
    ∀ t ∈ (find_best_split f tg).thresholds,
      0 < f.countP (fun v => decide (v < t)) ∧
      0 < f.countP (fun v => decide (t ≤ v)) := by
  intro t ht
  rw [fbs_thresholds] at ht
  rcases mem_midpoints.1 ht with ⟨p, hpmem, hpt⟩
  obtain ⟨hat, htb, ha, hb, _⟩ := pair_threshold_spec f tg p hpmem
  subst hpt
  have hmem := mem_mapFst_iff f tg hlen
  constructor
  · exact List.countP_pos_iff.2 ⟨p.1, (hmem _).1 ha, by simpa using hat⟩
  · exact List.countP_pos_iff.2 ⟨p.2, (hmem _).1 hb, by simpa using le_of_lt htb⟩

/-- On a vector with two distinct values the gini vector is nonempty. -/
theorem ginis_ne_nil (f : List ℚ) (tg : List ℕ) (hlen : f.length = tg.length)
    (hdist : ∃ a ∈ f, ∃ b ∈ f, a ≠ b) : (find_best_split f tg).ginis ≠ [] := by
  have h2u := two_le_uvals f tg hlen hdist
  rw [fbs_ginis]
  intro hnil
  rw [List.map_eq_nil_iff] at hnil
  have := congrArg List.length hnil
  rw [List.length_zip, List.length_tail] at this
  simp only [List.length_nil] at this
  omega

/-- When it exists, the returned best threshold is one of the candidate
thresholds. -/
theorem threshold_best_mem (f : List ℚ) (tg : List ℕ)
    (hne : (find_best_split f tg).ginis ≠ []) :
    (find_best_split f tg).threshold_best ∈ (find_best_split f tg).thresholds := by
  rw [fbs_threshold_best]
  have h : argmaxIdx (find_best_split f tg).ginis
      < (find_best_split f tg).thresholds.length := by
    rw [← fbs_lengths]
    exact argmaxIdx_lt_length hne
  rw [List.getD_eq_getElem _ _ h]
  exact List.getElem_mem h

/-! ### `keysInOrder`, `sortedCategories` and boolean-mask lemmas -/

theorem mem_keysInOrder : ∀ (l : List ℚ) (a : ℚ), a ∈ keysInOrder l ↔ a ∈ l
  | [], a => by simp [keysInOrder]
  | x :: l, a => by
    rw [keysInOrder]
    have ih := mem_keysInOrder (l.filter (fun v => decide (v ≠ x))) a
    constructor
    · intro h
      rcases List.mem_cons.1 h with rfl | h2
      · exact List.mem_cons_self _ _
      · exact List.mem_cons_of_mem _ (List.mem_of_mem_filter (ih.1 h2))
    · intro h
      rcases List.mem_cons.1 h with rfl | h2
      · exact List.mem_cons_self _ _
      · by_cases hax : a = x
        · subst hax
          exact List.mem_cons_self _ _
        · exact List.mem_cons_of_mem _
            (ih.2 (List.mem_filter.2 ⟨h2, by simpa using hax⟩))
termination_by l => l.length
decreasing_by simpa using Nat.lt_succ_of_le (List.length_filter_le _ _)

theorem keysInOrder_nodup : ∀ (l : List ℚ), (keysInOrder l).Nodup
  | [] => by simp [keysInOrder]
  | x :: l => by
    rw [keysInOrder]
    refine List.nodup_cons.2 ⟨?_, keysInOrder_nodup (l.filter (fun v => decide (v ≠ x)))⟩
    intro hmem
    have h2 := (mem_keysInOrder _ x).1 hmem
    have := (List.mem_filter.1 h2).2
    simp at this
termination_by l => l.length
decreasing_by simpa using Nat.lt_succ_of_le (List.length_filter_le _ _)

theorem sortedCategories_perm (col : List ℚ) (y : List ℕ) :
    (sortedCategories col y).Perm (keysInOrder col) :=
  List.perm_insertionSort _ _

theorem mem_sortedCategories {col : List ℚ} {y : List ℕ} {c : ℚ} :
    c ∈ sortedCategories col y ↔ c ∈ col :=
  (sortedCategories_perm col y).mem_iff.trans (mem_keysInOrder col c)

theorem exists_two_distinct_of_keys (l : List ℚ)
    (h : 1 < (keysInOrder l).length) : ∃ a ∈ l, ∃ b ∈ l, a ≠ b := by
  rcases hk : keysInOrder l with _ | ⟨a, tl⟩
  · rw [hk] at h
    simp at h
  · rcases tl with _ | ⟨b, rest⟩
    · rw [hk] at h
      simp at h
    · have hnd := keysInOrder_nodup l
      rw [hk] at hnd
      have hab : a ≠ b := by
        intro he
        subst he
        exact (List.nodup_cons.1 hnd).1 (by simp)
      have ha : a ∈ l := (mem_keysInOrder l a).1 (by rw [hk]; simp)
      have hb : b ∈ l := (mem_keysInOrder l b).1 (by rw [hk]; simp)
      exact ⟨a, ha, b, hb, hab⟩

/-- The best threshold of a feature with at least two distinct encoded
values splits the encoded vector into two nonempty sides (a matching
label vector given). -/
theorem threshold_best_sides (fv : List ℚ) (y : List ℕ)
    (hlen : fv.length = y.length) (hdist : 1 < (keysInOrder fv).length) :
    0 < fv.countP (fun v => decide (v < (find_best_split fv y).threshold_best)) ∧
    0 < fv.countP (fun v => decide ((find_best_split fv y).threshold_best ≤ v)) := by
  have hd2 := exists_two_distinct_of_keys fv hdist
  exact fbs_sides_core fv y hlen _
    (threshold_best_mem fv y (ginis_ne_nil fv y hlen hd2))

theorem maskFilter_map_self {α : Type} : ∀ (X : List α) (g : α → Bool),
    maskFilter X (X.map g) = X.filter g
  | [], g => rfl
  | x :: X, g => by
    simp only [maskFilter, List.map_cons, List.zip_cons_cons, List.filter_cons]
    cases hx : g x
    · simpa [maskFilter] using maskFilter_map_self X g
    · simpa [maskFilter] using maskFilter_map_self X g

theorem maskFilter_map_self_not {α : Type} (X : List α) (g : α → Bool) :
    maskFilter X ((X.map g).map (fun m => !m)) = X.filter (fun a => !g a) := by
  rw [List.map_map]
  exact maskFilter_map_self X (fun a => !g a)

theorem maskFilter_subset {α : Type} (l : List α) (m : List Bool) :
    ∀ x ∈ maskFilter l m, x ∈ l := by
  intro x hx
  unfold maskFilter at hx
  rcases List.mem_map.1 hx with ⟨p, hp, rfl⟩
  obtain ⟨p1, p2⟩ := p
  exact (List.of_mem_zip (List.mem_of_mem_filter hp)).1

theorem maskFilter_length_eq {α β : Type} (a : List α) :
    ∀ (b : List β) (m : List Bool), a.length = b.length →
      (maskFilter a m).length = (maskFilter b m).length := by
  induction a with
  | nil =>
    intro b m h
    cases b with
    | nil => rfl
    | cons y ys => simp at h
  | cons x xs ih =>
    intro b m h
    cases b with
    | nil => simp at h
    | cons y ys =>
      cases m with
      | nil => simp [maskFilter]
      | cons mb ms =>
        simp only [maskFilter, List.zip_cons_cons, List.filter_cons]
        cases mb
        · simpa [maskFilter] using ih ys ms (by simpa using h)
        · simpa [maskFilter] using ih ys ms (by simpa using h)

/-- A count over a column equals the length of the row filter by the same
test. -/
theorem countP_column (X : List (List ℚ)) (g : ℚ → Bool) (f : ℕ) :
    (column X f).countP g
      = (X.filter (fun row => g (row.getD f 0))).length := by
  unfold column
  rw [List.countP_map, List.countP_eq_length_filter]
  rfl

/-- `most_common` of a constant nonempty list is that constant. -/
theorem mostCommon_const {y : List ℕ} {c : ℕ} (hne : y ≠ [])
    (hpure : ∀ l ∈ y, l = c) : mostCommon y = c := by
  obtain ⟨y0, ys, rfl⟩ := List.exists_cons_of_ne_nil hne
  have hy0 : y0 = c := hpure y0 (by simp)
  have hfil : ys.filter (fun x => decide (x ≠ y0)) = [] := by
    rw [List.filter_eq_nil_iff]
    intro a ha
    have := hpure a (List.mem_cons_of_mem _ ha)
    simp [this, hy0]
  rw [mostCommon, labelKeysInOrder, hfil, labelKeysInOrder]
  simpa using hy0

theorem boolnot_lt (t v : ℚ) : (!decide (v < t)) = decide (t ≤ v) := by
  rw [← decide_not]
  exact decide_eq_decide.2 not_lt

/-- For an observed category, membership in the stored category list is
exactly the rank-below-threshold test used by the fitting mask. -/
theorem rank_lt_iff_mem_catsBelow {col : List ℚ} {y : List ℕ} {t : ℚ} {c : ℚ}
    (hc : c ∈ col) :
    ((categoryRank col y c : ℚ) < t) ↔ c ∈ catsBelow col y t := by
  unfold catsBelow
  constructor
  · intro h
    exact List.mem_filter.2 ⟨mem_sortedCategories.2 hc, by simpa using h⟩
  · intro h
    simpa using (List.mem_filter.1 h).2

/-- A champion produced by the feature loop is the candidate of one of the
features. -/
theorem bestSplit_fold_aux (cfg : TreeConfig) (X : List (List ℚ)) (y : List ℕ) :
    ∀ (fs : List ℕ) (acc : Option BestAcc) (b : BestAcc),
      fs.foldl (fun acc f =>
        match featureCandidate cfg X y f with
        | none => acc
        | some cand =>
          match acc with
          | none => some cand
          | some best =>
            if best.gini_best < cand.gini_best then some cand else some best) acc
        = some b →
      acc = some b ∨ ∃ f ∈ fs, featureCandidate cfg X y f = some b
  | [], acc, b, h => Or.inl h
  | f :: fs, acc, b, h => by
    rw [List.foldl_cons] at h
    rcases bestSplit_fold_aux cfg X y fs _ b h with h2 | h2
    · rcases hc : featureCandidate cfg X y f with _ | cand
      · rw [hc] at h2
        exact Or.inl h2
      · rw [hc] at h2
        rcases acc with _ | best
        · dsimp only at h2
          right
          refine ⟨f, List.mem_cons_self _ _, ?_⟩
          rw [hc]
          exact h2
        · dsimp only at h2
          by_cases hlt : best.gini_best < cand.gini_best
          · rw [if_pos hlt] at h2
            right
            refine ⟨f, List.mem_cons_self _ _, ?_⟩
            rw [hc]
            exact h2
          · rw [if_neg hlt] at h2
            exact Or.inl h2
    · rcases h2 with ⟨g, hg, hgc⟩
      exact Or.inr ⟨g, List.mem_cons_of_mem _ hg, hgc⟩

theorem bestSplit_eq_some {cfg : TreeConfig} {X : List (List ℚ)} {y : List ℕ}
    {b : BestAcc} (h : bestSplit cfg X y = some b) :
    ∃ f, featureCandidate cfg X y f = some b := by
  unfold bestSplit at h
  rcases bestSplit_fold_aux cfg X y _ none b h with h2 | h2
  · exact absurd h2 (by simp)
  · rcases h2 with ⟨f, _, hf⟩
    exact ⟨f, hf⟩

/-- What an accepted feature candidate looks like: the champion's stored
feature, mask, leaf-size guarantees, and kind of stored predicate. -/
theorem featureCandidate_some {cfg : TreeConfig} {X : List (List ℚ)}
    {y : List ℕ} {f : ℕ} {b : BestAcc}
    (h : featureCandidate cfg X y f = some b) :
    b.feature_best = f ∧
    1 < (keysInOrder (nodeFeatureVec cfg X y f)).length ∧
    b.split = (nodeFeatureVec cfg X y f).map (fun v =>
      decide (v < (find_best_split (nodeFeatureVec cfg X y f) y).threshold_best)) ∧
    (∀ k, cfg.min_samples_leaf = some k →
      k ≤ (nodeFeatureVec cfg X y f).countP (fun v =>
        decide (v < (find_best_split (nodeFeatureVec cfg X y f) y).threshold_best)) ∧
      k ≤ (nodeFeatureVec cfg X y f).countP (fun v =>
        decide ((find_best_split (nodeFeatureVec cfg X y f) y).threshold_best ≤ v))) ∧
    ((cfg.feature_types.getD f .real = .real ∧
        b.threshold_best
          = .thr (find_best_split (nodeFeatureVec cfg X y f) y).threshold_best) ∨
     (cfg.feature_types.getD f .real = .categorical ∧
        b.threshold_best = .cats (catsBelow (column X f) y
          (find_best_split (nodeFeatureVec cfg X y f) y).threshold_best))) := by
  unfold featureCandidate at h
  by_cases hg : (keysInOrder (nodeFeatureVec cfg X y f)).length ≤ 1
  · rw [if_pos hg] at h
    exact absurd h (by simp)
  · rw [if_neg hg] at h
    rcases hmsl : cfg.min_samples_leaf with _ | k
    · simp only [hmsl, if_true] at h
      obtain rfl := (Option.some.inj h).symm
      refine ⟨rfl, by omega, rfl, ?_, ?_⟩
      · intro k hk
        exact absurd hk (by simp)
      · rcases hft : cfg.feature_types.getD f .real with _ | _
        · left
          exact ⟨rfl, by simp [hft]⟩
        · right
          exact ⟨rfl, by simp [hft]⟩
    · simp only [hmsl] at h
      by_cases hvalid : (decide (k ≤ (nodeFeatureVec cfg X y f).countP (fun v =>
            decide (v < (find_best_split (nodeFeatureVec cfg X y f) y).threshold_best)))
          && decide (k ≤ (nodeFeatureVec cfg X y f).countP (fun v =>
            decide ((find_best_split (nodeFeatureVec cfg X y f) y).threshold_best ≤ v)))) = true
      · rw [if_pos hvalid] at h
        obtain rfl := (Option.some.inj h).symm
        obtain ⟨hv1, hv2⟩ := Bool.and_eq_true_iff.1 hvalid
        refine ⟨rfl, by omega, rfl, ?_, ?_⟩
        · intro k2 hk2
          obtain rfl := Option.some.inj hk2
          exact ⟨of_decide_eq_true hv1, of_decide_eq_true hv2⟩
        · rcases hft : cfg.feature_types.getD f .real with _ | _
          · left
            exact ⟨rfl, by simp [hft]⟩
          · right
            exact ⟨rfl, by simp [hft]⟩
      · rw [if_neg hvalid] at h
        exact absurd h (by simp)

/-! ### Relating the fitting masks to prediction routing -/

theorem maskFilter_route_real (X : List (List ℚ)) (f : ℕ) (t : ℚ) :
    maskFilter X ((column X f).map (fun v => decide (v < t)))
      = X.filter (routesLeftReal f t) := by
  unfold column routesLeftReal
  rw [List.map_map]
  exact maskFilter_map_self X _

theorem maskFilter_route_real_not (X : List (List ℚ)) (f : ℕ) (t : ℚ) :
    maskFilter X (((column X f).map (fun v => decide (v < t))).map
        (fun m => !m))
      = X.filter (fun row => !routesLeftReal f t row) := by
  unfold column routesLeftReal
  rw [List.map_map, List.map_map]
  exact maskFilter_map_self X _

theorem maskFilter_route_cat (X : List (List ℚ)) (y : List ℕ) (f : ℕ) (t : ℚ) :
    maskFilter X (((column X f).map
        (fun c => (categoryRank (column X f) y c : ℚ))).map
        (fun v => decide (v < t)))
      = X.filter (routesLeftCat f (catsBelow (column X f) y t)) := by
  rw [List.map_map]
  have hbase : (column X f) = X.map (fun row => row.getD f 0) := rfl
  rw [show ((column X f).map ((fun v => decide (v < t)) ∘
      (fun c => (categoryRank (column X f) y c : ℚ))))
      = X.map (((fun v => decide (v < t)) ∘
        (fun c => (categoryRank (column X f) y c : ℚ))) ∘
        (fun row => row.getD f 0)) from by rw [hbase, List.map_map]]
  rw [maskFilter_map_self]
  apply List.filter_congr
  intro row hrow
  have hcol : row.getD f 0 ∈ column X f := List.mem_map_of_mem _ hrow
  unfold routesLeftCat
  simp only [Function.comp_apply]
  exact decide_eq_decide.2 (rank_lt_iff_mem_catsBelow hcol)

theorem maskFilter_route_cat_not (X : List (List ℚ)) (y : List ℕ) (f : ℕ)
    (t : ℚ) :
    maskFilter X ((((column X f).map
        (fun c => (categoryRank (column X f) y c : ℚ))).map
        (fun v => decide (v < t))).map (fun m => !m))
      = X.filter (fun row =>
          !routesLeftCat f (catsBelow (column X f) y t) row) := by
  rw [List.map_map, List.map_map]
  have hbase : (column X f) = X.map (fun row => row.getD f 0) := rfl
  rw [show ((column X f).map (((fun m : Bool => !m) ∘ (fun v => decide (v < t))) ∘
      (fun c => (categoryRank (column X f) y c : ℚ))))
      = X.map ((((fun m : Bool => !m) ∘ (fun v => decide (v < t))) ∘
        (fun c => (categoryRank (column X f) y c : ℚ))) ∘
        (fun row => row.getD f 0)) from by rw [hbase, List.map_map]]
  rw [maskFilter_map_self]
  apply List.filter_congr
  intro row hrow
  have hcol : row.getD f 0 ∈ column X f := List.mem_map_of_mem _ hrow
  unfold routesLeftCat
  simp only [Function.comp_apply]
  congr 1
  exact decide_eq_decide.2 (rank_lt_iff_mem_catsBelow hcol)

theorem countP_route_real_left (X : List (List ℚ)) (f : ℕ) (t : ℚ) :
    (column X f).countP (fun v => decide (v < t))
      = (X.filter (routesLeftReal f t)).length := by
  rw [countP_column]
  rfl

theorem countP_route_real_right (X : List (List ℚ)) (f : ℕ) (t : ℚ) :
    (column X f).countP (fun v => decide (t ≤ v))
      = (X.filter (fun row => !routesLeftReal f t row)).length := by
  rw [countP_column]
  congr 1
  apply List.filter_congr
  intro row _
  unfold routesLeftReal
  exact (boolnot_lt t _).symm

theorem countP_route_cat_left (X : List (List ℚ)) (y : List ℕ) (f : ℕ)
    (t : ℚ) :
    ((column X f).map (fun c => (categoryRank (column X f) y c : ℚ))).countP
        (fun v => decide (v < t))
      = (X.filter (routesLeftCat f (catsBelow (column X f) y t))).length := by
  rw [List.countP_map, countP_column]
  congr 1
  apply List.filter_congr
  intro row hrow
  have hcol : row.getD f 0 ∈ column X f := List.mem_map_of_mem _ hrow
  unfold routesLeftCat
  simp only [Function.comp_apply]
  exact decide_eq_decide.2 (rank_lt_iff_mem_catsBelow hcol)

theorem countP_route_cat_right (X : List (List ℚ)) (y : List ℕ) (f : ℕ)
    (t : ℚ) :
    ((column X f).map (fun c => (categoryRank (column X f) y c : ℚ))).countP
        (fun v => decide (t ≤ v))
      = (X.filter (fun row =>
          !routesLeftCat f (catsBelow (column X f) y t) row)).length := by
  rw [List.countP_map, countP_column]
  congr 1
  apply List.filter_congr
  intro row hrow
  have hcol : row.getD f 0 ∈ column X f := List.mem_map_of_mem _ hrow
  unfold routesLeftCat
  simp only [Function.comp_apply]
  rw [← boolnot_lt]
  congr 1
  exact decide_eq_decide.2 (rank_lt_iff_mem_catsBelow hcol)

/-- Invariant induction for claim C6: with `min_samples_leaf = k`, every
internal node of the fitted tree splits the rows reaching it into a left
and a right part of size at least `k`. -/
theorem sizesOK_fit_node (cfg : TreeConfig) (k : ℕ)
    (hk : cfg.min_samples_leaf = some k) :
    ∀ (fuel : ℕ) (X : List (List ℚ)) (y : List ℕ) (depth : ℕ),
      sizesOK k (fit_node cfg fuel X y depth) X
  | 0, X, y, depth => by
    simp only [fit_node, sizesOK]
  | fuel + 1, X, y, depth => by
    simp only [fit_node]
    by_cases hpure : (y.all (fun l => decide (l = y.headD 0))) = true
    · rw [if_pos hpure]
      simp only [sizesOK]
    · rw [if_neg hpure]
      rcases hbs : (if canSplitCond cfg X.length depth then bestSplit cfg X y
          else none) with _ | b
      · simp only [sizesOK]
      · have hsome : bestSplit cfg X y = some b := by
          by_cases hcs : canSplitCond cfg X.length depth = true
          · rwa [if_pos hcs] at hbs
          · rw [if_neg hcs] at hbs
            exact absurd hbs (by simp)
        obtain ⟨f, hfc⟩ := bestSplit_eq_some hsome
        obtain ⟨hfb, _, hsplit, hmsl, hkind⟩ := featureCandidate_some hfc
        obtain ⟨hk1, hk2⟩ := hmsl k hk
        dsimp only
        by_cases hbelow : belowSplitMin cfg X.length = true
        · rw [if_pos hbelow]
          simp only [sizesOK]
        · rw [if_neg hbelow]
          rcases hkind with ⟨hft, hthr⟩ | ⟨hft, hthr⟩
          · -- real split
            have hfv : nodeFeatureVec cfg X y f = column X f := by
              unfold nodeFeatureVec
              rw [hft]
              rfl
            rw [hfv] at hsplit hk1 hk2 hthr
            rw [hthr, hfb]
            dsimp only
            simp only [sizesOK]
            have hmask : maskFilter X b.split
                = X.filter (routesLeftReal f
                    (find_best_split (column X f) y).threshold_best) := by
              rw [hsplit]
              exact maskFilter_route_real X f _
            have hmaskn : maskFilter X (b.split.map (fun m => !m))
                = X.filter (fun row => !routesLeftReal f
                    (find_best_split (column X f) y).threshold_best row) := by
              rw [hsplit]
              exact maskFilter_route_real_not X f _
            refine ⟨?_, ?_, ?_, ?_⟩
            · rw [← countP_route_real_left]
              exact hk1
            · rw [← countP_route_real_right]
              exact hk2
            · rw [← hmask]
              exact sizesOK_fit_node cfg k hk fuel _ _ _
            · rw [← hmaskn]
              exact sizesOK_fit_node cfg k hk fuel _ _ _
          · -- categorical split
            have hfv : nodeFeatureVec cfg X y f = (column X f).map
                (fun c => (categoryRank (column X f) y c : ℚ)) := by
              unfold nodeFeatureVec
              rw [hft]
              rfl
            rw [hfv] at hsplit hk1 hk2 hthr
            rw [hthr, hfb]
            dsimp only
            simp only [sizesOK]
            have hmask : maskFilter X b.split
                = X.filter (routesLeftCat f (catsBelow (column X f) y
                    (find_best_split ((column X f).map
                      (fun c => (categoryRank (column X f) y c : ℚ))) y).threshold_best)) := by
              rw [hsplit]
              exact maskFilter_route_cat X y f _
            have hmaskn : maskFilter X (b.split.map (fun m => !m))
                = X.filter (fun row => !routesLeftCat f (catsBelow (column X f) y
                    (find_best_split ((column X f).map
                      (fun c => (categoryRank (column X f) y c : ℚ))) y).threshold_best) row) := by
              rw [hsplit]
              exact maskFilter_route_cat_not X y f _
            refine ⟨?_, ?_, ?_, ?_⟩
            · rw [← countP_route_cat_left]
              exact hk1
            · rw [← countP_route_cat_right]
              exact hk2
            · rw [← hmask]
              exact sizesOK_fit_node cfg k hk fuel _ _ _
            · rw [← hmaskn]
              exact sizesOK_fit_node cfg k hk fuel _ _ _

/-- Invariant induction for claim C8: at every internal node on a
categorical feature the stored left category set consists of categories
observed at that node, and both the stored set and its complement within
the observed categories are inhabited. -/
theorem catOK_fit_node (cfg : TreeConfig) :
    ∀ (fuel : ℕ) (X : List (List ℚ)) (y : List ℕ) (depth : ℕ),
      X.length = y.length → catOK (fit_node cfg fuel X y depth) X
  | 0, X, y, depth, _ => by
    simp only [fit_node, catOK]
  | fuel + 1, X, y, depth, hlen => by
    simp only [fit_node]
    by_cases hpure : (y.all (fun l => decide (l = y.headD 0))) = true
    · rw [if_pos hpure]
      simp only [catOK]
    · rw [if_neg hpure]
      rcases hbs : (if canSplitCond cfg X.length depth then bestSplit cfg X y
          else none) with _ | b
      · simp only [catOK]
      · have hsome : bestSplit cfg X y = some b := by
          by_cases hcs : canSplitCond cfg X.length depth = true
          · rwa [if_pos hcs] at hbs
          · rw [if_neg hcs] at hbs
            exact absurd hbs (by simp)
        obtain ⟨f, hfc⟩ := bestSplit_eq_some hsome
        obtain ⟨hfb, hdist2, hsplit, _, hkind⟩ := featureCandidate_some hfc
        dsimp only
        by_cases hbelow : belowSplitMin cfg X.length = true
        · rw [if_pos hbelow]
          simp only [catOK]
        · rw [if_neg hbelow]
          rcases hkind with ⟨hft, hthr⟩ | ⟨hft, hthr⟩
          · -- real split: only the recursive obligations remain
            have hfv : nodeFeatureVec cfg X y f = column X f := by
              unfold nodeFeatureVec
              rw [hft]
              rfl
            rw [hfv] at hsplit hthr
            rw [hthr, hfb]
            dsimp only
            simp only [catOK]
            have hmask : maskFilter X b.split
                = X.filter (routesLeftReal f
                    (find_best_split (column X f) y).threshold_best) := by
              rw [hsplit]
              exact maskFilter_route_real X f _
            have hmaskn : maskFilter X (b.split.map (fun m => !m))
                = X.filter (fun row => !routesLeftReal f
                    (find_best_split (column X f) y).threshold_best row) := by
              rw [hsplit]
              exact maskFilter_route_real_not X f _
            refine ⟨?_, ?_⟩
            · rw [← hmask]
              exact catOK_fit_node cfg fuel _ _ _
                (maskFilter_length_eq X y b.split hlen)
            · rw [← hmaskn]
              exact catOK_fit_node cfg fuel _ _ _
                (maskFilter_length_eq X y (b.split.map (fun m => !m)) hlen)
          · -- categorical split
            have hfv : nodeFeatureVec cfg X y f = (column X f).map
                (fun c => (categoryRank (column X f) y c : ℚ)) := by
              unfold nodeFeatureVec
              rw [hft]
              rfl
            rw [hfv] at hsplit hthr hdist2
            rw [hthr, hfb]
            dsimp only
            simp only [catOK]
            have hmask : maskFilter X b.split
                = X.filter (routesLeftCat f (catsBelow (column X f) y
                    (find_best_split ((column X f).map
                      (fun c => (categoryRank (column X f) y c : ℚ))) y).threshold_best)) := by
              rw [hsplit]
              exact maskFilter_route_cat X y f _
            have hmaskn : maskFilter X (b.split.map (fun m => !m))
                = X.filter (fun row => !routesLeftCat f (catsBelow (column X f) y
                    (find_best_split ((column X f).map
                      (fun c => (categoryRank (column X f) y c : ℚ))) y).threshold_best) row) := by
              rw [hsplit]
              exact maskFilter_route_cat_not X y f _
            have hfvlen : ((column X f).map
                (fun c => (categoryRank (column X f) y c : ℚ))).length = y.length := by
              rw [List.length_map]
              unfold column
              rw [List.length_map]
              exact hlen
            obtain ⟨hside1, hside2⟩ := threshold_best_sides
              ((column X f).map (fun c => (categoryRank (column X f) y c : ℚ)))
              y hfvlen hdist2
            refine ⟨?_, ?_, ?_, ?_, ?_⟩
            · intro c hc
              exact (mem_keysInOrder _ c).2
                (mem_sortedCategories.1 (List.mem_of_mem_filter hc))
            · rcases List.countP_pos_iff.1 hside1 with ⟨v, hv, hvp⟩
              rcases List.mem_map.1 hv with ⟨c, hc, rfl⟩
              refine ⟨c, (mem_keysInOrder _ c).2 hc, ?_⟩
              exact (rank_lt_iff_mem_catsBelow hc).1 (by simpa using hvp)
            · rcases List.countP_pos_iff.1 hside2 with ⟨v, hv, hvp⟩
              rcases List.mem_map.1 hv with ⟨c, hc, rfl⟩
              refine ⟨c, (mem_keysInOrder _ c).2 hc, ?_⟩
              intro hmem
              have h1 : ((categoryRank (column X f) y c : ℚ))
                  < (find_best_split ((column X f).map
                      (fun c => (categoryRank (column X f) y c : ℚ))) y).threshold_best :=
                (rank_lt_iff_mem_catsBelow hc).2 hmem
              have h2 : (find_best_split ((column X f).map
                  (fun c => (categoryRank (column X f) y c : ℚ))) y).threshold_best
                  ≤ ((categoryRank (column X f) y c : ℚ)) := by simpa using hvp
              exact absurd (lt_of_le_of_lt h2 h1) (lt_irrefl _)
            · rw [← hmask]
              exact catOK_fit_node cfg fuel _ _ _
                (maskFilter_length_eq X y b.split hlen)
            · rw [← hmaskn]
              exact catOK_fit_node cfg fuel _ _ _
                (maskFilter_length_eq X y (b.split.map (fun m => !m)) hlen)

/-- Rows of a boolean-masked subsample are rows of the original sample. -/
theorem column_subset {X X₀ : List (List ℚ)} (hsub : ∀ row ∈ X, row ∈ X₀)
    (f : ℕ) : ∀ c ∈ column X f, c ∈ column X₀ f := by
  intro c hc
  rcases List.mem_map.1 hc with ⟨row, hrow, rfl⟩
  exact List.mem_map_of_mem _ (hsub row hrow)

/-- Invariant induction for claim C10: every stored category at any
categorical split of a fitted tree is a value observed in the
corresponding column of the original fitting sample `X₀`. -/
theorem storedCatsObserved_fit_node (cfg : TreeConfig) :
    ∀ (fuel : ℕ) (X : List (List ℚ)) (y : List ℕ) (depth : ℕ)
      (X₀ : List (List ℚ)), (∀ row ∈ X, row ∈ X₀) →
      storedCatsObserved X₀ (fit_node cfg fuel X y depth)
  | 0, X, y, depth, X₀, _ => by
    simp only [fit_node, storedCatsObserved]
  | fuel + 1, X, y, depth, X₀, hsub => by
    simp only [fit_node]
    by_cases hpure : (y.all (fun l => decide (l = y.headD 0))) = true
    · rw [if_pos hpure]
      simp only [storedCatsObserved]
    · rw [if_neg hpure]
      rcases hbs : (if canSplitCond cfg X.length depth then bestSplit cfg X y
          else none) with _ | b
      · simp only [storedCatsObserved]
      · have hsome : bestSplit cfg X y = some b := by
          by_cases hcs : canSplitCond cfg X.length depth = true
          · rwa [if_pos hcs] at hbs
          · rw [if_neg hcs] at hbs
            exact absurd hbs (by simp)
        obtain ⟨f, hfc⟩ := bestSplit_eq_some hsome
        obtain ⟨hfb, _, hsplit, _, hkind⟩ := featureCandidate_some hfc
        dsimp only
        by_cases hbelow : belowSplitMin cfg X.length = true
        · rw [if_pos hbelow]
          simp only [storedCatsObserved]
        · rw [if_neg hbelow]
          have hsubl : ∀ row ∈ maskFilter X b.split, row ∈ X₀ :=
            fun row hr => hsub row (maskFilter_subset X b.split row hr)
          have hsubr : ∀ row ∈ maskFilter X (b.split.map (fun m => !m)), row ∈ X₀ :=
            fun row hr => hsub row (maskFilter_subset X _ row hr)
          rcases hkind with ⟨hft, hthr⟩ | ⟨hft, hthr⟩
          · rw [hthr, hfb]
            dsimp only
            simp only [storedCatsObserved]
            exact ⟨storedCatsObserved_fit_node cfg fuel _ _ _ X₀ hsubl,
              storedCatsObserved_fit_node cfg fuel _ _ _ X₀ hsubr⟩
          · rw [hthr, hfb]
            dsimp only
            simp only [storedCatsObserved]
            refine ⟨?_, storedCatsObserved_fit_node cfg fuel _ _ _ X₀ hsubl,
              storedCatsObserved_fit_node cfg fuel _ _ _ X₀ hsubr⟩
            intro c hc
            exact column_subset hsub f c
              (mem_sortedCategories.1 (List.mem_of_mem_filter hc))

/-! ### Lemmas about `_fit_node` termination cases -/

/-- On a nonempty all-equal label vector `_fit_node` takes the purity
branch immediately, whatever the configuration, depth and remaining fuel:
the purity test is the first statement of the function. -/
theorem fit_node_pure_aux (cfg : TreeConfig) (fuel : ℕ) (X : List (List ℚ))
    (y : List ℕ) (depth : ℕ) (c : ℕ) (hf : fuel ≠ 0) (hne : y ≠ [])
    (hpure : ∀ l ∈ y, l = c) :
    fit_node cfg fuel X y depth = .terminal c := by
  obtain ⟨f, rfl⟩ := Nat.exists_eq_succ_of_ne_zero hf
  obtain ⟨y0, ys, rfl⟩ := List.exists_cons_of_ne_nil hne
  have hy0 : y0 = c := hpure y0 (by simp)
  have hall : (y0 :: ys).all (fun l => decide (l = (y0 :: ys).headD 0)) = true := by
    simp only [List.headD_cons, List.all_eq_true]
    intro l hl
    simp [hpure l hl, hy0]
  subst hy0
  simp only [fit_node]
  rw [hall]
  simp

/-! ### Claim theorems -/

/-- C5: for every non-empty subsample whose labels are all identical,
`_fit_node` emits a Terminal node holding that label — for every
configuration of `max_depth`, `min_samples_split`, `min_samples_leaf`, at
every depth (including 0) and for any positive fuel; the purity check
precedes every stopping-parameter test, so none of them appear as
hypotheses. -/
theorem fit_node_pure_terminal (cfg : TreeConfig) (fuel : ℕ)
    (X : List (List ℚ)) (y : List ℕ) (depth : ℕ) (c : ℕ) (hf : fuel ≠ 0)
    (hne : y ≠ []) (hpure : ∀ l ∈ y, l = c) :
    fit_node cfg fuel X y depth = .terminal c :=
  fit_node_pure_aux cfg fuel X y depth c hf hne hpure

/-- Witness for C5: a pure two-row subsample at depth 0 yields
`Terminal 5` even under `max_depth = 0`, `min_samples_split = 100` and
`min_samples_leaf = 100`. -/
theorem fit_node_pure_terminal_witness :
    fit_node
      { feature_types := [.real], max_depth := some 0,
        min_samples_split := some 100, min_samples_leaf := some 100 }
      1 [[1], [2]] [5, 5] 0 = .terminal 5 :=
  fit_node_pure_terminal _ 1 [[1], [2]] [5, 5] 0 5 (by simp) (by simp) (by decide)

/-- C9: two-run determinism — fitting twice on identical inputs produces
identical tree structure, and predicting an identical query matrix on the
two fitted trees produces identical outputs.  The embedded `fit` and
`predict` are pure functions of their arguments, which is exactly the
source situation: no randomness is used and python dict/Counter iteration
order is deterministic. -/
theorem fit_predict_deterministic (cfg : TreeConfig) (X₁ X₂ : List (List ℚ))
    (y₁ y₂ : List ℕ) (Q : List (List ℚ)) (hX : X₁ = X₂) (hy : y₁ = y₂) :
    fit cfg X₁ y₁ = fit cfg X₂ y₂ ∧
    predict (fit cfg X₁ y₁) Q = predict (fit cfg X₂ y₂) Q := by
  subst hX
  subst hy
  exact ⟨rfl, rfl⟩

/-- Witness for C9 at a concrete fit/predict input. -/
theorem fit_predict_deterministic_witness :
    fit scenarioConfig [[1]] [0] = fit scenarioConfig [[1]] [0] ∧
    predict (fit scenarioConfig [[1]] [0]) [[2]]
      = predict (fit scenarioConfig [[1]] [0]) [[2]] :=
  fit_predict_deterministic scenarioConfig [[1]] [[1]] [0] [0] [[2]] rfl rfl

/-- C1: on `X = [[1],[2],[3],[4],[5],[6]]`, `y = [0,0,0,1,1,1]` with one
real feature and `max_depth = 1`, `fit` produces an internal node on
feature 0 with threshold `3.5 = 7/2` whose children are terminal nodes
predicting 0 and 1, and `predict([[0],[10]])` returns `[0, 1]`. -/
theorem end_to_end_scenario :
    fit scenarioConfig [[1], [2], [3], [4], [5], [6]] [0, 0, 0, 1, 1, 1]
      = Node.internalReal 0 (7 / 2) (.terminal 0) (.terminal 1) ∧
    predict (fit scenarioConfig [[1], [2], [3], [4], [5], [6]] [0, 0, 0, 1, 1, 1])
      [[0], [10]] = [0, 1] := by
  have h : fit scenarioConfig [[1], [2], [3], [4], [5], [6]] [0, 0, 0, 1, 1, 1]
      = Node.internalReal 0 (7 / 2) (.terminal 0) (.terminal 1) := by
    norm_num [fit, fit_node, scenarioConfig, bestSplit, featureCandidate,
      nodeFeatureVec, catsBelow, find_best_split, sortPairs, dedupSorted,
      midpoints, uniqueIndex, p1ForLeft,
      Qvalue, maxVal, argmaxIdx, column, keysInOrder, labelKeysInOrder, mostCommon,
      encodeFeature, canSplitCond, belowSplitMin, maskFilter, List.insertionSort,
      List.orderedInsert, List.filter, List.countP, List.countP.go, List.range,
      List.range.loop, List.foldl, List.zip, List.zipWith, List.take, List.count]
  refine ⟨h, ?_⟩
  rw [h]
  norm_num [predict, predict_node]

/-- C7 counterexample: `fit` does not fail on length-mismatched input — the
source contains no shape check at all (and no `ShapeError` exists anywhere
in it).  With 2 rows and 3 labels, all equal, `fit` silently returns an
ordinary Terminal node instead of raising. -/
theorem fit_mismatch_counterexample :
    ([[1], [2]] : List (List ℚ)).length ≠ ([0, 0, 0] : List ℕ).length ∧
    fit { feature_types := [.real] } [[1], [2]] [0, 0, 0] = .terminal 0 := by
  constructor
  · simp
  · unfold fit
    exact fit_node_pure_aux _ _ _ _ _ _ (by simp) (by simp) (by decide)

/-- C7 amended: `fit` performs no length validation; a mismatched sample
matrix and label vector is not rejected with a `ShapeError`.  In
particular, whenever the labels are all equal, `fit` on mismatched-length
input still returns a Terminal node with that label.  (The source here
never compares the lengths; on impure labels a mismatch surfaces, if at
all, as a generic numpy `IndexError`, not a dedicated shape error.) -/
theorem fit_no_shape_error (cfg : TreeConfig) (X : List (List ℚ)) (y : List ℕ)
    (c : ℕ) (hmis : X.length ≠ y.length) (hne : y ≠ []) (hpure : ∀ l ∈ y, l = c) :
    fit cfg X y = .terminal c := by
  unfold fit
  exact fit_node_pure_aux cfg (X.length + 1) X y 0 c (Nat.succ_ne_zero _) hne hpure

/-- Witness for the amended C7 at a concrete mismatched input. -/
theorem fit_no_shape_error_witness :
    fit { feature_types := [.real] } [[1], [2]] [7, 7, 7] = .terminal 7 :=
  fit_no_shape_error _ [[1], [2]] [7, 7, 7] 7 (by simp) (by simp) (by decide)

/-- C3: every candidate threshold returned by `find_best_split` lies
strictly between two adjacent distinct observed feature values and is
their arithmetic mean, equals no observed value, and splits the vector
into a nonempty strictly-below part and a nonempty at-or-above part;
conversely, the arithmetic mean of every adjacent pair of distinct
observed values is among the returned thresholds (so the thresholds are
exactly those means). -/
theorem find_best_split_thresholds_valid (f : List ℚ) (tg : List ℕ)
    (hlen : f.length = tg.length) :
    (∀ t ∈ (find_best_split f tg).thresholds,
      (∃ a ∈ f, ∃ b ∈ f, a < t ∧ t < b ∧ t = (a + b) / 2 ∧
        ∀ v ∈ f, v ≤ a ∨ b ≤ v) ∧
      (∀ v ∈ f, v ≠ t) ∧
      0 < f.countP (fun v => decide (v < t)) ∧
      0 < f.countP (fun v => decide (t ≤ v))) ∧
    (∀ a ∈ f, ∀ b ∈ f, a < b → (∀ v ∈ f, v ≤ a ∨ b ≤ v) →
      (a + b) / 2 ∈ (find_best_split f tg).thresholds) := by
  have hmem := mem_mapFst_iff f tg hlen
  constructor
  · intro t ht
    rw [fbs_thresholds] at ht
    rcases mem_midpoints.1 ht with ⟨p, hpmem, hpt⟩
    obtain ⟨hat, htb, ha, hb, _⟩ := pair_threshold_spec f tg p hpmem
    obtain ⟨_, _, _, hadj⟩ := zip_tail_spec (uvals_sorted_lt f tg) p hpmem
    subst hpt
    refine ⟨⟨p.1, (hmem _).1 ha, p.2, (hmem _).1 hb, hat, htb, rfl, ?_⟩, ?_, ?_, ?_⟩
    · intro v hv
      exact hadj v (mem_dedupSorted.2 ((hmem v).2 hv))
    · intro v hv hvt
      rcases hadj v (mem_dedupSorted.2 ((hmem v).2 hv)) with h1 | h1
      · rw [hvt] at h1
        exact absurd (lt_of_lt_of_le hat h1) (lt_irrefl _)
      · rw [hvt] at h1
        exact absurd (lt_of_lt_of_le htb h1) (lt_irrefl _)
    · refine List.countP_pos_iff.2 ⟨p.1, (hmem _).1 ha, ?_⟩
      simpa using hat
    · refine List.countP_pos_iff.2 ⟨p.2, (hmem _).1 hb, ?_⟩
      simpa using le_of_lt htb
  · intro a ha b hb hab hadj
    rw [fbs_thresholds]
    have hmemz : (a, b) ∈ (dedupSorted ((sortPairs f tg).map Prod.fst)).zip
        (dedupSorted ((sortPairs f tg).map Prod.fst)).tail :=
      mem_zip_tail_of_adj (uvals_sorted_lt f tg) a b
        (mem_dedupSorted.2 ((hmem a).2 ha)) (mem_dedupSorted.2 ((hmem b).2 hb)) hab
        (fun v hv => hadj v ((hmem v).1 (mem_dedupSorted.1 hv)))
    exact mem_midpoints.2 ⟨(a, b), hmemz, rfl⟩

/-- Witness for C3: on the vector `[1, 2]` the mean `3/2` of the adjacent
pair (1, 2) is among the returned thresholds. -/
theorem find_best_split_thresholds_valid_witness :
    ((1 : ℚ) + 2) / 2 ∈ (find_best_split [1, 2] [0, 1]).thresholds :=
  (find_best_split_thresholds_valid [1, 2] [0, 1] rfl).2 1 (by norm_num) 2
    (by norm_num) (by norm_num)
    (by intro v hv; simp at hv; rcases hv with rfl | rfl <;> norm_num)

/-- C2: for a matching binary target vector, the gain vector computed by
`find_best_split` via cumulative sums over the sorted labels equals, at
each candidate threshold `t`, the reference definition
`Gain(t) = −(|left|/N)·H(left) − (|right|/N)·H(right)` with
`left = {x < t}`, `right = {x ≥ t}` and `H(S) = 1 − p1² − p0²`. -/
theorem find_best_split_ginis_refine (f : List ℚ) (tg : List ℕ)
    (hlen : f.length = tg.length) (hbin : ∀ l ∈ tg, l = 0 ∨ l = 1)
    (hdist : ∃ a ∈ f, ∃ b ∈ f, a ≠ b) :
    (find_best_split f tg).ginis
      = (find_best_split f tg).thresholds.map (refGain (f.zip tg)) := by
  rw [fbs_ginis, fbs_thresholds, midpoints, List.map_map]
  apply List.map_congr_left
  intro p hp
  simpa using Qvalue_eq_refGain f tg hlen hbin p hp

/-- Witness for C2 at the concrete input `f = [1, 2]`, `y = [0, 1]`. -/
theorem find_best_split_ginis_refine_witness :
    (find_best_split [1, 2] [0, 1]).ginis
      = (find_best_split [1, 2] [0, 1]).thresholds.map
          (refGain (([1, 2] : List ℚ).zip ([0, 1] : List ℕ))) :=
  find_best_split_ginis_refine [1, 2] [0, 1] rfl
    (by intro l hl; simp at hl; rcases hl with rfl | rfl <;> simp)
    ⟨1, by norm_num, 2, by norm_num, by norm_num⟩

/-- C4: when several candidate thresholds attain the maximum gain, the
returned best threshold is the smallest of them: it is itself a threshold
attaining the maximum, and it is `≤` every threshold whose gain equals the
returned best gain. -/
theorem find_best_split_tiebreak (f : List ℚ) (tg : List ℕ)
    (hlen : f.length = tg.length) (hdist : ∃ a ∈ f, ∃ b ∈ f, a ≠ b) :
    (∃ i, i < (find_best_split f tg).thresholds.length ∧
      (find_best_split f tg).thresholds.getD i 0
        = (find_best_split f tg).threshold_best ∧
      (find_best_split f tg).ginis.getD i 0 = (find_best_split f tg).gini_best) ∧
    (∀ i, i < (find_best_split f tg).thresholds.length →
      (find_best_split f tg).ginis.getD i 0 = (find_best_split f tg).gini_best →
      (find_best_split f tg).threshold_best
        ≤ (find_best_split f tg).thresholds.getD i 0) := by
  have h2u := two_le_uvals f tg hlen hdist
  have hlen_gt : (find_best_split f tg).ginis ≠ [] := by
    rw [fbs_ginis]
    intro hnil
    rw [List.map_eq_nil_iff] at hnil
    have := congrArg List.length hnil
    rw [List.length_zip, List.length_tail] at this
    simp only [List.length_nil] at this
    omega
  have hglen := fbs_lengths f tg
  have hth_sorted : (find_best_split f tg).thresholds.Pairwise (· < ·) := by
    rw [fbs_thresholds]
    exact midpoints_pairwise (uvals_sorted_lt f tg)
  constructor
  · refine ⟨argmaxIdx (find_best_split f tg).ginis, ?_, ?_, ?_⟩
    · rw [← hglen]
      exact argmaxIdx_lt_length hlen_gt
    · rw [fbs_threshold_best]
    · rw [fbs_gini_best]
      exact getD_argmaxIdx_eq_maxVal hlen_gt
  · intro i hi hgi
    have hargle : argmaxIdx (find_best_split f tg).ginis ≤ i := by
      by_contra hcon
      push_neg at hcon
      have := getD_lt_maxVal_of_lt_argmaxIdx hcon
      rw [hgi, fbs_gini_best] at this
      exact absurd this (lt_irrefl _)
    rw [fbs_threshold_best]
    exact getD_le_getD_of_pairwise_lt hth_sorted hargle hi

/-- C6: with `min_samples_leaf = k`, every Internal node of the fitted
tree partitions its subsample (the rows routed to it by the stored
predicates) into a left side and a right side each of size at least `k`;
and when the feature loop rejects every split (no candidate remains),
`_fit_node` emits a Terminal node carrying the most frequent label. -/
theorem fit_node_min_samples_leaf (cfg : TreeConfig) (k fuel : ℕ)
    (X : List (List ℚ)) (y : List ℕ) (depth : ℕ)
    (hk : cfg.min_samples_leaf = some k) :
    sizesOK k (fit_node cfg fuel X y depth) X ∧
    (y ≠ [] → bestSplit cfg X y = none →
      fit_node cfg (fuel + 1) X y depth = .terminal (mostCommon y)) := by
  refine ⟨sizesOK_fit_node cfg k hk fuel X y depth, ?_⟩
  intro hne hnone
  simp only [fit_node]
  by_cases hpure : (y.all (fun l => decide (l = y.headD 0))) = true
  · rw [if_pos hpure]
    have hpure2 : ∀ l ∈ y, l = y.headD 0 := by
      intro l hl
      simpa using (List.all_eq_true.1 hpure) l hl
    rw [mostCommon_const hne hpure2]
  · rw [if_neg hpure]
    have hnb : (if canSplitCond cfg X.length depth then bestSplit cfg X y
        else none) = none := by
      by_cases hcs : canSplitCond cfg X.length depth = true
      · rw [if_pos hcs]
        exact hnone
      · rw [if_neg hcs]
    rw [hnb]

/-- Witness for C6: with `min_samples_leaf = 2` on
`X = [[1],[2],[3]]`, `y = [0,0,1]` every candidate split leaves a side of
size 1, so the split search comes back empty and the node is the
majority-class Terminal 0. -/
theorem fit_node_min_samples_leaf_witness :
    fit_node { feature_types := [.real], min_samples_leaf := some 2 } 4
      [[1], [2], [3]] [0, 0, 1] 0 = .terminal 0 := by
  have h := (fit_node_min_samples_leaf
    { feature_types := [.real], min_samples_leaf := some 2 } 2 3
    [[1], [2], [3]] [0, 0, 1] 0 rfl).2 (by simp)
    (by norm_num [bestSplit, featureCandidate, nodeFeatureVec, encodeFeature,
      column, keysInOrder, find_best_split, sortPairs, dedupSorted, midpoints,
      uniqueIndex, p1ForLeft, Qvalue, maxVal, argmaxIdx, List.insertionSort,
      List.orderedInsert, List.filter, List.countP, List.countP.go, List.range,
      List.range.loop, List.foldl, List.zip, List.zipWith, List.take])
  rw [h]
  norm_num [mostCommon, labelKeysInOrder, List.filter]

/-- C8: for every fitted tree (on an equal-length sample), at every
Internal node built on a categorical feature the stored left category set
together with its complement within the categories observed at that node
partitions those observed categories exactly: the stored set holds only
observed categories — so the two sets are disjoint and their union is the
observed set — and both the stored set and its complement are inhabited. -/
theorem fit_node_cat_partition (cfg : TreeConfig) (fuel : ℕ)
    (X : List (List ℚ)) (y : List ℕ) (depth : ℕ)
    (hlen : X.length = y.length) :
    catOK (fit_node cfg fuel X y depth) X :=
  catOK_fit_node cfg fuel X y depth hlen

/-- Witness for C8 on a concrete categorical sample with categories
{10, 20, 30}. -/
theorem fit_node_cat_partition_witness :
    catOK (fit_node { feature_types := [.categorical] } 5
      [[10], [20], [10], [30]] [0, 1, 1, 1] 0) [[10], [20], [10], [30]] :=
  fit_node_cat_partition { feature_types := [.categorical] } 5
    [[10], [20], [10], [30]] [0, 1, 1, 1] 0 rfl

/-- C10: at a categorical internal node `_predict_node` routes by exact
membership of the row's value in the stored category list: a non-member —
in particular any value never observed during fitting, since every stored
category of a fitted tree occurs in that feature's column of the training
sample — goes to the right child, and only members go left. -/
theorem predict_cat_membership_routing :
    (∀ (x : List ℚ) (f : ℕ) (cs : List ℚ) (l r : Node),
      x.getD f 0 ∉ cs →
      predict_node x (.internalCat f cs l r) = predict_node x r) ∧
    (∀ (x : List ℚ) (f : ℕ) (cs : List ℚ) (l r : Node),
      x.getD f 0 ∈ cs →
      predict_node x (.internalCat f cs l r) = predict_node x l) ∧
    (∀ (cfg : TreeConfig) (fuel : ℕ) (X : List (List ℚ)) (y : List ℕ)
      (depth : ℕ), storedCatsObserved X (fit_node cfg fuel X y depth)) := by
  refine ⟨?_, ?_, ?_⟩
  · intro x f cs l r hmem
    simp only [predict_node]
    rw [if_neg hmem]
  · intro x f cs l r hmem
    simp only [predict_node]
    rw [if_pos hmem]
  · intro cfg fuel X y depth
    exact storedCatsObserved_fit_node cfg fuel X y depth X (fun _ h => h)

/-- Witness for C10: the unseen value 5 routes to the right child. -/
theorem predict_cat_membership_routing_witness :
    predict_node [5] (.internalCat 0 [1, 2] (.terminal 0) (.terminal 1))
      = predict_node [5] (.terminal 1) :=
  predict_cat_membership_routing.1 [5] 0 [1, 2] (.terminal 0) (.terminal 1)
    (by norm_num)

/-- Witness for C4 on `f = [1, 2, 3, 4]`, `y = [0, 1, 1, 0]`: the gains
are `[-1/3, -1/2, -1/3]`, so thresholds `3/2` and `7/2` tie at the maximum
and the returned best threshold is `≤ 7/2` (it is in fact `3/2`). -/
theorem find_best_split_tiebreak_witness :
    (find_best_split [1, 2, 3, 4] [0, 1, 1, 0]).threshold_best
      ≤ (find_best_split [1, 2, 3, 4] [0, 1, 1, 0]).thresholds.getD 2 0 :=
  (find_best_split_tiebreak [1, 2, 3, 4] [0, 1, 1, 0] rfl
      ⟨1, by norm_num, 2, by norm_num, by norm_num⟩).2 2
    (by norm_num [find_best_split, sortPairs, dedupSorted, midpoints,
      List.insertionSort, List.orderedInsert])
    (by norm_num [find_best_split, sortPairs, dedupSorted, midpoints, uniqueIndex,
      p1ForLeft, Qvalue, maxVal, argmaxIdx, List.insertionSort, List.orderedInsert,
      List.countP, List.countP.go, List.take])

end HW5
